import Mathlib

/-
  Verification development for the Ghana healthcare query engine
  (deterministic analysis library, completion gateway, stream decoder,
  chat orchestrator and data loader).

  Numeric values of the program are modelled exactly over the rationals;
  JavaScript division, whose result on a zero divisor is not a finite
  number (NaN or Infinity), is modelled by an Option-valued division
  where the guarded call sites of the program use plain division.
  Math.log is treated as an abstract function parameter, since no claim
  depends on its values.  Strings are modelled as Lean strings and
  character lists.
-/

set_option maxRecDepth 4000

-- ============================================================
-- Shared numeric utilities (JS semantics)
-- ============================================================

/-- Math.round of JavaScript: floor of x + 1/2. -/
def jsRound (q : ℚ) : ℤ := ⌊q + 1/2⌋

/-- Math.round(x * 10) / 10, rounding to one decimal. -/
def round1 (q : ℚ) : ℚ := (jsRound (q * 10) : ℚ) / 10

/-- Math.round(x * 100) / 100, rounding to two decimals. -/
def round2 (q : ℚ) : ℚ := (jsRound (q * 100) : ℚ) / 100

/-- Math.round(x * 1000) / 1000, rounding to three decimals. -/
def round3 (q : ℚ) : ℚ := (jsRound (q * 1000) : ℚ) / 1000

/-- JavaScript division, none when the divisor is zero (NaN / Infinity). -/
def jdiv (a b : ℚ) : Option ℚ := if b = 0 then none else some (a / b)

/-- reduce((a, b) => a + b, 0) over a list of rationals. -/
def qsum (l : List ℚ) : ℚ := l.foldl (· + ·) 0

/-- Truthiness of an optional number in JavaScript: undefined and 0 are falsy. -/
def jsTruthy : Option ℚ → Bool
  | none => false
  | some x => x ≠ 0

-- ============================================================
-- Shared string utilities
-- ============================================================

/-- Whether pat occurs at the start of the character list. -/
def leadsWith : List Char → List Char → Bool
  | [], _ => true
  | _ :: _, [] => false
  | p :: ps, c :: cs => p == c && leadsWith ps cs

/-- Whether pat occurs at some position of the character list. -/
def subAt (pat : List Char) : List Char → Bool
  | [] => leadsWith pat []
  | c :: cs => leadsWith pat (c :: cs) || subAt pat cs

/-- String.prototype.includes of JavaScript. -/
def strIncludes (hay pat : String) : Bool := subAt pat.toList hay.toList

/-- String.prototype.toLowerCase (ASCII case folding). -/
def toLowerStr (s : String) : String := ⟨s.data.map Char.toLower⟩

/-- Insertion of an element in front of the first list element le deems
    not smaller. -/
def insertSorted {α : Type} (le : α → α → Bool) (a : α) : List α → List α
  | [] => [a]
  | b :: bs => if le a b then a :: b :: bs else b :: insertSorted le a bs

/-- Stable ascending insertion sort.  With le the non-strict comparison
    on the sort key this computes exactly the stable ascending sort, the
    result of Array.prototype.sort with a numeric key comparator. -/
def insSort {α : Type} (le : α → α → Bool) : List α → List α
  | [] => []
  | a :: as => insertSorted le a (insSort le as)

-- ============================================================
-- C7: derived averageScore of loadHospitals  (dataLoader)
-- ============================================================

/-- The six parsed capability scores of one hospital CSV record. -/
structure HospitalScores where
  medicalProceduresScore : ℚ
  medicalEquipmentScore : ℚ
  staffScore : ℚ
  infrastructureScore : ℚ
  accreditationScore : ℚ
  patientExperienceScore : ℚ
  deriving DecidableEq

/-- The score array built by loadHospitals before filtering. -/
def capabilityList (h : HospitalScores) : List ℚ :=
  [h.medicalProceduresScore, h.medicalEquipmentScore, h.staffScore,
   h.infrastructureScore, h.accreditationScore, h.patientExperienceScore]

/-- Mean of the strictly positive capability scores, 0 when there are none
    (the avgScore local of loadHospitals). -/
def nonzeroMeanScore (h : HospitalScores) : ℚ :=
  let scores := (capabilityList h).filter (fun s => 0 < s)
  if scores.length = 0 then 0 else qsum scores / scores.length

/-- The derived averageScore field of loadHospitals:
    Math.round(avgScore * 10) / 10. -/
def hospitalAverageScore (h : HospitalScores) : ℚ :=
  round1 (nonzeroMeanScore h)

-- ============================================================
-- C9: message log operations  (useGhanaData)
-- ============================================================

/-- Message role of the chat log. -/
inductive ChatRole
  | user
  | assistant
  deriving DecidableEq

/-- One entry of the conversation log (Date modelled as a Nat instant). -/
structure ChatMessage where
  id : String
  role : ChatRole
  content : String
  timestamp : Nat
  deriving DecidableEq

/-- addMessage of useGhanaData: setMessages(prev => [...prev, new]).
    The generated id and the Date.now() instant are explicit inputs. -/
def addMessage (log : List ChatMessage) (role : ChatRole) (content : String)
    (freshId : String) (now : Nat) : List ChatMessage :=
  log ++ [⟨freshId, role, content, now⟩]

/-- clearMessages of useGhanaData: setMessages([]). -/
def clearMessages (_log : List ChatMessage) : List ChatMessage := []

-- ============================================================
-- C4: parseUserQuery  (agentAnalysis)
-- ============================================================

/-- The action categories of QueryIntent (types/ghana). -/
inductive QueryAction
  | overview
  | compare
  | find_hospitals
  | threats
  | recommendations
  | regional_analysis
  | help
  | medical_deserts
  | staffing_analysis
  | equipment_analysis
  | maternal_health
  | child_health
  | insurance_analysis
  | capacity_analysis
  | accreditation_analysis
  | ranking
  | gap_analysis
  deriving DecidableEq

/-- The intent record returned by parseUserQuery (fields used there). -/
structure QueryIntent where
  action : QueryAction
  regions : Option (List String)
  metrics : Option (List String)
  deriving DecidableEq

/-- The priority-ordered action detection chain of parseUserQuery,
    applied to the lowercased query. -/
def detectAction (q : String) : QueryAction :=
  if strIncludes q "medical desert" || strIncludes q "underserved" || strIncludes q "coverage gap" then
    .medical_deserts
  else if strIncludes q "equipment" || strIncludes q "technology" || strIncludes q "device" then
    .equipment_analysis
  else if strIncludes q "staff" || strIncludes q "doctor" || strIncludes q "nurse" || strIncludes q "personnel" || strIncludes q "workforce" then
    .staffing_analysis
  else if strIncludes q "maternal" || strIncludes q "pregnancy" || strIncludes q "birth" || strIncludes q "delivery" || strIncludes q "antenatal" then
    .maternal_health
  else if strIncludes q "child" || strIncludes q "infant" || strIncludes q "pediatric" || strIncludes q "vaccination" || strIncludes q "immunization" then
    .child_health
  else if strIncludes q "insurance" || strIncludes q "coverage" || strIncludes q "access" then
    .insurance_analysis
  else if strIncludes q "capacity" || strIncludes q "bed" || strIncludes q "infrastructure" then
    .capacity_analysis
  else if strIncludes q "accredit" || strIncludes q "certif" || strIncludes q "quality" || strIncludes q "standard" then
    .accreditation_analysis
  else if strIncludes q "compare" || strIncludes q "versus" || strIncludes q "vs" || strIncludes q "difference" then
    .compare
  else if strIncludes q "threat" || strIncludes q "risk" || strIncludes q "danger" || strIncludes q "crisis" || strIncludes q "emergency" then
    .threats
  else if strIncludes q "recommend" || strIncludes q "suggest" || strIncludes q "should" || strIncludes q "priority" || strIncludes q "where to" || strIncludes q "action" then
    .recommendations
  else if strIncludes q "rank" || strIncludes q "top" || strIncludes q "best" || strIncludes q "worst" || strIncludes q "bottom" then
    .ranking
  else if strIncludes q "gap" || strIncludes q "missing" || strIncludes q "lack" || strIncludes q "need" then
    .gap_analysis
  else if strIncludes q "find" || strIncludes q "search" || strIncludes q "list" || (strIncludes q "show" && strIncludes q "hospital") then
    .find_hospitals
  else if strIncludes q "region" || strIncludes q "area" || strIncludes q "district" then
    .regional_analysis
  else if strIncludes q "summary" || strIncludes q "dashboard" || strIncludes q "overview" || strIncludes q "status" then
    .overview
  else if strIncludes q "help" || strIncludes q "what can" || strIncludes q "how do" then
    .help
  else
    .overview

/-- The fixed lowercase gazetteer of region names in parseUserQuery. -/
def regionNames : List String :=
  ["greater accra", "ashanti", "western", "western north", "central",
   "eastern", "volta", "northern", "upper east", "upper west",
   "bono", "bono east", "ahafo", "savannah", "northeast", "oti"]

/-- parseUserQuery of agentAnalysis. -/
def parseUserQuery (query : String) : QueryIntent :=
  let lowerQuery := toLowerStr query
  let act := detectAction lowerQuery
  let regions := regionNames.filter (fun r => strIncludes lowerQuery r)
  let metrics :=
    (if strIncludes lowerQuery "score" then ["score"] else []) ++
    (if strIncludes lowerQuery "population" then ["population"] else []) ++
    (if strIncludes lowerQuery "density" then ["density"] else [])
  { action := act,
    regions := if regions.length > 0 then some regions else none,
    metrics := if metrics.length > 0 then some metrics else none }

-- ============================================================
-- C1 / C10 / C5: dataset records and the deterministic engine
-- ============================================================

/-- Hospital fields consumed by the analysis routines under scrutiny. -/
structure Hospital where
  region : String
  averageScore : ℚ
  deriving DecidableEq

/-- Region fields consumed by the analysis routines under scrutiny. -/
structure Region where
  canonicalName : String
  population2021 : Option ℚ
  areaKm2 : Option ℚ
  populationDensity : Option ℚ
  deriving DecidableEq

/-- The hospital-to-region assignment used by every regional aggregate:
    h.region.toLowerCase().includes(r.canonicalName.toLowerCase()). -/
def regionMatch (r : Region) (h : Hospital) : Bool :=
  strIncludes (toLowerStr h.region) (toLowerStr r.canonicalName)

/-- The regionHospitals collection of a region. -/
def regionHospitals (hospitals : List Hospital) (r : Region) : List Hospital :=
  hospitals.filter (regionMatch r)

/-- hospitalsPerCapita of analyzeMedicalDeserts before rounding:
    count / (population / 100000). -/
def trueHpc (hospitals : List Hospital) (r : Region) : ℚ :=
  ((regionHospitals hospitals r).length : ℚ) / (r.population2021.getD 0 / 100000)

/-- avgScore of analyzeMedicalDeserts before rounding (guarded mean). -/
def trueAvgScore (hospitals : List Hospital) (r : Region) : ℚ :=
  let rh := regionHospitals hospitals r
  if rh.length > 0 then qsum (rh.map (·.averageScore)) / rh.length else 0

/-- One row of the regionData array of analyzeMedicalDeserts. -/
structure DesertEntry where
  region : String
  population : ℚ
  area : ℚ
  hospitalCount : ℕ
  hospitalsPerCapita : ℚ
  avgScore : ℚ
  density : ℚ
  desertScore : ℚ
  isDesert : Bool
  deriving DecidableEq

/-- The row built for one region by the map of analyzeMedicalDeserts;
    rlog is the model of Math.log. -/
def desertEntry (rlog : ℚ → ℚ) (hospitals : List Hospital) (r : Region) : DesertEntry :=
  let hpc := trueHpc hospitals r
  let avg := trueAvgScore hospitals r
  let score := hpc * avg / rlog (r.areaKm2.getD 0 + 1)
  { region := r.canonicalName,
    population := r.population2021.getD 0,
    area := r.areaKm2.getD 0,
    hospitalCount := (regionHospitals hospitals r).length,
    hospitalsPerCapita := round2 hpc,
    avgScore := round1 avg,
    density := r.populationDensity.getD 0,
    desertScore := round3 score,
    isDesert := decide (hpc < 1/2) || decide (avg < 3) }

/-- The regionData list of analyzeMedicalDeserts: filter on truthy
    population and area, map to rows, then the ascending stable sort of
    Array.prototype.sort on desertScore (mergeSort is stable, as the
    JS sort is). -/
def medicalDesertRegionData (rlog : ℚ → ℚ) (hospitals : List Hospital)
    (regions : List Region) : List DesertEntry :=
  insSort (fun a b => decide (a.desertScore ≤ b.desertScore))
    ((regions.filter (fun r => jsTruthy r.population2021 && jsTruthy r.areaKm2)).map
      (desertEntry rlog hospitals))

/-- The payload assembled by analyzeMedicalDeserts. -/
structure DesertAnalysis where
  regionData : List DesertEntry
  deserts : List DesertEntry
  underserved : List DesertEntry
  deriving DecidableEq

/-- analyzeMedicalDeserts of agentAnalysis (data payload). -/
def analyzeMedicalDeserts (rlog : ℚ → ℚ) (hospitals : List Hospital)
    (regions : List Region) : DesertAnalysis :=
  let regionData := medicalDesertRegionData rlog hospitals regions
  { regionData := regionData,
    deserts := regionData.filter (·.isDesert),
    underserved := regionData.take 5 }

/-- calculatePercentile of agentAnalysis, nearest-rank:
    index = ceil(p/100 * n) - 1 clamped at 0, read from the
    ascending-sorted copy.  An out-of-range read is undefined in JS,
    hence the Option result. -/
def calculatePercentile (values : List ℚ) (percentile : ℚ) : Option ℚ :=
  let sorted := insSort (fun a b => decide (a ≤ b)) values
  let index : ℤ := ⌈percentile / 100 * values.length⌉ - 1
  sorted.get? (max 0 index).toNat

/-- getQuartiles of agentAnalysis. -/
def getQuartiles (values : List ℚ) : Option ℚ × Option ℚ × Option ℚ :=
  (calculatePercentile values 25, calculatePercentile values 50, calculatePercentile values 75)

/-- The numeric core of the data payload of generateOverview.
    none models a value that is NaN (0/0) or undefined in JS. -/
structure OverviewData where
  totalHospitals : ℕ
  averageScore : Option ℚ
  quartiles : Option ℚ × Option ℚ × Option ℚ
  criticalHospitals : ℕ
  excellentHospitals : ℕ
  totalRegions : ℕ
  totalPopulation : ℚ
  hospitalsPerMillion : Option ℚ
  deriving DecidableEq

/-- generateOverview of agentAnalysis (numeric payload fields). -/
def generateOverview (hospitals : List Hospital) (regions : List Region) : OverviewData :=
  let totalHospitals := hospitals.length
  let scores := hospitals.map (·.averageScore)
  let avgScore := jdiv (qsum scores) totalHospitals
  let totalPopulation := qsum (regions.map (fun r => r.population2021.getD 0))
  { totalHospitals := totalHospitals,
    averageScore := avgScore.map round1,
    quartiles := getQuartiles scores,
    criticalHospitals := (hospitals.filter (fun h => decide (h.averageScore < 3))).length,
    excellentHospitals := (hospitals.filter (fun h => decide (7 ≤ h.averageScore))).length,
    totalRegions := regions.length,
    totalPopulation := totalPopulation,
    hospitalsPerMillion := jdiv totalHospitals (totalPopulation / 1000000) }

-- ============================================================
-- C2: model fallback loop of the healthcare-chat gateway
-- ============================================================

/-- A simulated upstream HTTP response: status plus an abstract payload. -/
structure SimResp where
  status : ℕ
  payload : String
  deriving DecidableEq

/-- Response.ok of fetch: status in [200, 300). -/
def respOk (s : ℕ) : Bool := 200 ≤ s && s < 300

/-- The statuses the gateway retries on the next model. -/
def retryableStatus (s : ℕ) : Bool := s == 429 || s == 503

/-- Terminal outcome of the gateway request handler. -/
inductive GatewayOutcome
  | success (model : String) (payload : String)
  | credentialError
  | upstreamError
  | allUnavailable
  deriving DecidableEq

/-- Observable events of the fallback loop: one upstream attempt, or the
    fixed 500 ms backoff before moving to the next model. -/
inductive FallbackEv
  | tried (model : String) (status : ℕ)
  | waited (ms : ℕ)
  deriving DecidableEq

/-- The model fallback loop of the healthcare-chat gateway: iterate the
    priority list; first 2xx wins; 429/503 waits 500 ms and falls through
    to the next model; 401 fails at once as a credential error; any other
    status fails at once as a generic upstream error; an exhausted list
    yields the distinct all-unavailable outcome. -/
def serveFallback : List String → (String → SimResp) → GatewayOutcome × List FallbackEv
  | [], _ => (.allUnavailable, [])
  | m :: ms, resp =>
    let r := resp m
    if respOk r.status then
      (.success m r.payload, [.tried m r.status])
    else if retryableStatus r.status then
      let rest := serveFallback ms resp
      (rest.1, .tried m r.status :: .waited 500 :: rest.2)
    else if r.status == 401 then
      (.credentialError, [.tried m r.status])
    else
      (.upstreamError, [.tried m r.status])

/-- The fixed model priority list of the gateway. -/
def MODELS : List String := ["gpt-4o-mini", "gpt-4o", "gpt-3.5-turbo"]

/-- Modelled from the spec wording of the fallback policy: the first model
    whose status is not retryable decides the outcome (2xx success, 401
    credential error, other upstream error); if every model is retryable
    the outcome is all-unavailable. -/
def specFallbackOutcome (models : List String) (resp : String → SimResp) : GatewayOutcome :=
  match models.find? (fun m => ! retryableStatus (resp m).status) with
  | none => .allUnavailable
  | some m =>
    if respOk (resp m).status then .success m (resp m).payload
    else if (resp m).status == 401 then .credentialError
    else .upstreamError

/-- Modelled from the spec wording: the attempt trace tries each retryable
    model in order, waiting 500 ms after each, then tries the first
    non-retryable model (if any). -/
def specFallbackTrace (models : List String) (resp : String → SimResp) : List FallbackEv :=
  ((models.takeWhile (fun m => retryableStatus (resp m).status)).map
      (fun m => [FallbackEv.tried m (resp m).status, FallbackEv.waited 500])).flatten ++
  (match models.find? (fun m => ! retryableStatus (resp m).status) with
   | none => []
   | some m => [FallbackEv.tried m (resp m).status])

/-- The simulated responses [429, 503, 200] of the spec test. -/
def demoResponses : String → SimResp := fun m =>
  if m = "gpt-4o-mini" then ⟨429, "r1"⟩
  else if m = "gpt-4o" then ⟨503, "r2"⟩
  else ⟨200, "r3"⟩

-- ============================================================
-- C6: structured-response extraction of the gateway
-- ============================================================

/-- One entry of message.tool_calls of the upstream response. -/
structure UpToolCall where
  name : String
  args : String
  deriving DecidableEq

/-- choices[0].message of the upstream response. -/
structure UpMessage where
  toolCalls : List UpToolCall
  content : Option String
  deriving DecidableEq

/-- The body returned by the gateway on the analysis path. -/
inductive GatewayPayload (α : Type)
  | analysis (data : α) (text : String)
  | plainText (t : String)
  deriving DecidableEq

/-- result.choices?.[0]?.message?.tool_calls?.[0] of the gateway. -/
def headToolCall (message : Option UpMessage) : Option UpToolCall :=
  ((message.map (·.toolCalls)).getD []).head?

/-- result.choices?.[0]?.message?.content || two-quote empty string. -/
def contentText (message : Option UpMessage) : String :=
  (message.bind (·.content)).getD ""

/-- The structured-response extraction branch of the gateway, for a 2xx
    analysis-mode response.  parseArgs models JSON.parse of the tool-call
    arguments (none on a parse error); textOf reads the textResponse
    field of the parsed data. -/
def extractStructured {α : Type} (parseArgs : String → Option α)
    (textOf : α → Option String) (message : Option UpMessage) : GatewayPayload α :=
  match headToolCall message with
  | some tc =>
    if tc.name = "generate_analysis" then
      match parseArgs tc.args with
      | some d => .analysis d ((textOf d).getD "")
      | none => .plainText (contentText message)
    else .plainText (contentText message)
  | none => .plainText (contentText message)

-- ============================================================
-- C8: assisted-mode request issue and completion application
-- ============================================================

/-- One entry of the messages array sent to the gateway. -/
structure WireMessage where
  role : ChatRole
  content : String
  deriving DecidableEq

/-- The JSON body of the outgoing assisted-mode request, exactly the
    fields serialized by streamHealthcareChat:
    messages, userRole, hospitalData, regionData. -/
structure ChatRequestBody where
  messages : List WireMessage
  userRole : String
  hospitalData : String
  regionData : String
  deriving DecidableEq

/-- Array.prototype.slice(-n). -/
def takeLast {α : Type} (n : ℕ) (l : List α) : List α := l.drop (l.length - n)

/-- The request body built by handleSend: the last 10 logged messages
    plus the new user message, with role, hospital and region context. -/
def buildChatRequestBody (log : List ChatMessage) (query : String)
    (userRole hospitalData regionData : String) : ChatRequestBody :=
  { messages := (takeLast 10 log).map (fun m => ⟨m.role, m.content⟩) ++ [⟨.user, query⟩],
    userRole := userRole,
    hospitalData := hospitalData,
    regionData := regionData }

/-- The orchestrator state touched by handleSend and its callbacks. -/
structure OrchState where
  log : List ChatMessage
  isProcessing : Bool
  streamingContent : String
  deriving DecidableEq

/-- handleSend of ChatInterface up to the point the request is issued:
    an empty query or an in-flight request is ignored; otherwise the user
    message is committed and the request built from the previous log is
    issued. -/
def stepSend (s : OrchState) (query : String) (freshId : String) (now : ℕ)
    (userRole hospitalData regionData : String) : OrchState × Option ChatRequestBody :=
  if query = "" || s.isProcessing then (s, none)
  else
    ({ log := addMessage s.log .user query freshId now,
       isProcessing := true,
       streamingContent := "" },
     some (buildChatRequestBody s.log query userRole hospitalData regionData))

/-- The onDone callback of handleSend: commit the accumulated streamed
    response (when non-empty) and release the in-flight flag.  No
    identifier of the completed request is consulted. -/
def applyDone (s : OrchState) (fullResponse : String) (freshId : String) (now : ℕ) : OrchState :=
  { log := if fullResponse = "" then s.log
           else addMessage s.log .assistant fullResponse freshId now,
    isProcessing := false,
    streamingContent := "" }

/-- The onError callback of handleSend. -/
def applyError (s : OrchState) : OrchState :=
  { s with isProcessing := false, streamingContent := "" }

/-- Modelled from the spec: each outgoing request carries a correlation
    identifier and a response is applied only if its identifier still
    matches the most recently issued request.  For that comparison to
    tell a superseded request from the current one, the identifier read
    off the wire must be fresh per issuance; the necessary condition
    formalized here is that the issued wire bodies are pairwise
    distinct. -/
def issuedBodiesDistinct (issued : List ChatRequestBody) : Prop :=
  issued.Pairwise (· ≠ ·)

-- ============================================================
-- C3: the stream decoder of streamHealthcareChat  (aiChat)
-- ============================================================

/-- Whitespace recognized by String.prototype.trim (the characters
    relevant to event-stream text). -/
def isWS (c : Char) : Bool := c == ' ' || c == '\t' || c == '\r' || c == '\n'

/-- String.prototype.trim. -/
def trimChars (l : List Char) : List Char :=
  ((l.dropWhile isWS).reverse.dropWhile isWS).reverse

/-- The frame marker, the data-colon-space string. -/
def dataMarker : List Char := "data: ".toList

/-- The terminal sentinel payload. -/
def doneChars : List Char := "[DONE]".toList

/-- Removal of one trailing carriage return, as the decode loop does
    before inspecting a line. -/
def stripCR (l : List Char) : List Char :=
  if l.getLast? = some '\r' then l.dropLast else l

/-- What the decode loop does with one newline-terminated line. -/
inductive LineAct
  | skip
  | emit (t : List Char)
  | term
  | push (stored : List Char)
  deriving DecidableEq

/-- Why a drain pass over the buffer stopped. -/
inductive DrainStop
  | noNL
  | stalled
  | finished
  deriving DecidableEq

section StreamDecoder

variable (parseFrame : List Char → Option (Option (List Char)))

/-- The per-line step of the decode loop of streamHealthcareChat: strip a
    trailing carriage return; skip comment and blank lines and lines
    without the marker; stop on the terminal sentinel; on a parse error
    (parseFrame none) push the line back; emit the delta content when
    present and non-empty (some (some t)), else skip. -/
def lineAct (l : List Char) : LineAct :=
  let line := stripCR l
  if leadsWith [':'] line || (trimChars line).isEmpty then .skip
  else if ! leadsWith dataMarker line then .skip
  else
    let jsonStr := trimChars (line.drop 6)
    if jsonStr = doneChars then .term
    else
      match parseFrame jsonStr with
      | none => .push line
      | some none => .skip
      | some (some t) => if t = [] then .skip else .emit t

/-- Split at the first newline: the line before it and the rest after. -/
def splitNL : List Char → Option (List Char × List Char)
  | [] => none
  | c :: cs => if c = '\n' then some ([], cs) else (splitNL cs).map (fun p => (c :: p.1, p.2))

/-- Fuelled inner decode loop: process complete lines of the buffer until
    no newline is left, the stream stalls on a pushed-back line, or the
    terminal sentinel is seen.  The fuel only bounds recursion; any fuel
    at least the buffer length gives the loop itself. -/
def drainF : ℕ → List Char → List (List Char) × List Char × DrainStop
  | 0, buf => ([], buf, .noNL)
  | fuel + 1, buf =>
    match splitNL buf with
    | none => ([], buf, .noNL)
    | some (line, rest) =>
      match lineAct parseFrame line with
      | .skip => drainF fuel rest
      | .emit t => (t :: (drainF fuel rest).1, (drainF fuel rest).2)
      | .term => ([], [], .finished)
      | .push stored => ([], stored ++ '\n' :: rest, .stalled)

/-- The inner decode loop of streamHealthcareChat on a buffer. -/
def drain (buf : List Char) : List (List Char) × List Char × DrainStop :=
  drainF parseFrame buf.length buf

/-- Decoder state between reads: the carry-over buffer and whether the
    terminal sentinel ended the logical stream. -/
structure DecSt where
  buf : List Char
  finished : Bool
  deriving DecidableEq

/-- One read step: append the chunk to the buffer and run the inner
    decode loop; a finished stream ignores further chunks. -/
def feed (s : DecSt) (chunk : List Char) : DecSt × List (List Char) :=
  if s.finished then (s, [])
  else
    (⟨(drain parseFrame (s.buf ++ chunk)).2.1,
      decide ((drain parseFrame (s.buf ++ chunk)).2.2 = .finished)⟩,
     (drain parseFrame (s.buf ++ chunk)).1)

/-- Feeding a sequence of chunks, concatenating the emitted deltas. -/
def feedList (s : DecSt) : List (List Char) → DecSt × List (List Char)
  | [] => (s, [])
  | c :: cs =>
    ((feedList (feed parseFrame s c).1 cs).1,
     (feed parseFrame s c).2 ++ (feedList (feed parseFrame s c).1 cs).2)

/-- The per-line step of the final flush of streamHealthcareChat (no
    carriage-return strip, no push-back: unparseable fragments are
    discarded). -/
def flushLine (raw : List Char) : List (List Char) :=
  if raw.isEmpty || leadsWith [':'] raw then []
  else if ! leadsWith dataMarker raw then []
  else
    let jsonStr := trimChars (raw.drop 6)
    if jsonStr = doneChars then []
    else
      match parseFrame jsonStr with
      | some (some t) => if t = [] then [] else [t]
      | _ => []

/-- String.prototype.split on newlines. -/
def splitAllNL : List Char → List (List Char)
  | [] => [[]]
  | c :: cs =>
    if c = '\n' then [] :: splitAllNL cs
    else
      match splitAllNL cs with
      | [] => [[c]]
      | p :: ps => (c :: p) :: ps

/-- The final flush: when the leftover buffer is not blank, process each
    of its newline-separated fragments. -/
def flushOut (buf : List Char) : List (List Char) :=
  if (trimChars buf).isEmpty then []
  else ((splitAllNL buf).map (flushLine parseFrame)).flatten

/-- A whole decoder run over a sequence of read chunks: the concatenated
    onDelta outputs, and whether the terminal sentinel (rather than
    stream end plus flush) closed the stream. -/
def runDecoder (chunks : List (List Char)) : List (List Char) × Bool :=
  if (feedList parseFrame ⟨[], false⟩ chunks).1.finished then
    ((feedList parseFrame ⟨[], false⟩ chunks).2, true)
  else
    ((feedList parseFrame ⟨[], false⟩ chunks).2 ++
      flushOut parseFrame (feedList parseFrame ⟨[], false⟩ chunks).1.buf, false)

end StreamDecoder

/-- Removal of every trailing carriage return of a line. -/
def fullStrip (l : List Char) : List Char := (l.reverse.dropWhile (· == '\r')).reverse

/-- Buffers equal up to trailing carriage returns of a stalled first
    line: the observational equivalence that push-back re-processing
    preserves. -/
def BufR (b1 b2 : List Char) : Prop :=
  b1 = b2 ∨ ∃ l1 l2 rest, ('\n' ∉ l1) ∧ ('\n' ∉ l2) ∧ fullStrip l1 = fullStrip l2 ∧
    b1 = l1 ++ '\n' :: rest ∧ b2 = l2 ++ '\n' :: rest

/-- Decoder states related by BufR with equal finished flags. -/
def StR (s1 s2 : DecSt) : Prop := s1.finished = s2.finished ∧ BufR s1.buf s2.buf

/-- Invariant of decoder states reachable between reads: the stream is
    finished, or the buffer holds no newline (all complete lines were
    consumed), or the buffer starts with a pushed-back line that fails to
    parse (the stream is stalled). -/
def GoodSt (parseFrame : List Char → Option (Option (List Char))) (s : DecSt) : Prop :=
  s.finished = true ∨ ('\n' ∉ s.buf) ∨
    (∃ L rest p, s.buf = L ++ '\n' :: rest ∧ '\n' ∉ L ∧ lineAct parseFrame L = .push p)

-- ============================================================
-- Concrete sample data for witnesses and counterexamples
-- ============================================================

/-- Sample record: capability scores 1, 1, 2 and three zero scores. -/
def sampleScores : HospitalScores := ⟨1, 1, 2, 0, 0, 0⟩

/-- Sample chat log entry. -/
def sampleMsg : ChatMessage := ⟨"msg-1", .user, "hello", 0⟩

/-- Wire body of a send of hi from an empty log. -/
def demoBody : ChatRequestBody := buildChatRequestBody [] "hi" "general" "hd" "rd"

/-- Orchestrator start state. -/
def demoS0 : OrchState := ⟨[], false, ""⟩

/-- Orchestrator state reached after the first request errored and the
    log was cleared. -/
def demoS3 : OrchState :=
  { applyError (stepSend demoS0 "hi" "id1" 0 "general" "hd" "rd").1 with
      log := clearMessages (applyError (stepSend demoS0 "hi" "id1" 0 "general" "hd" "rd").1).log }

/-- Constant stand-in for Math.log in concrete desert computations. -/
def demoRlog : ℚ → ℚ := fun _ => 1

/-- Sample hospital and region for the desert-rule witness. -/
def demoDesertHosp : Hospital := ⟨"Northern", 2⟩

/-- Sample region for the desert-rule witness. -/
def demoDesertRegion : Region := ⟨"Northern", some 100000, some 10, none⟩

/-- Constant stand-in for Math.log in the double-counting example. -/
def demoRlog10 : ℚ → ℚ := fun _ => 1

/-- A hospital whose region string is Western North. -/
def wnHospital : Hospital := ⟨"Western North", 5⟩

/-- The Western region record. -/
def westernRegion : Region := ⟨"Western", some 2000000, some 10000, none⟩

/-- The Western North region record. -/
def westernNorthRegion : Region := ⟨"Western North", some 900000, some 8000, none⟩

/-- Sample hospital for the overview-guard witness. -/
def demoOverviewHosp : Hospital := ⟨"Ashanti", 5⟩

-- ===================================================================
-- THEOREMS
-- ===================================================================

-- ------------------------------------------------------------
-- Numeric helper lemmas
-- ------------------------------------------------------------

theorem qsum_cons (x : ℚ) (l : List ℚ) : qsum (x :: l) = x + qsum l := by
  have aux : ∀ (l : List ℚ) (a : ℚ), l.foldl (· + ·) a = a + l.foldl (· + ·) 0 := by
    intro l
    induction l with
    | nil => intro a; simp
    | cons y ys ih =>
      intro a
      simp only [List.foldl]
      rw [ih (a + y), ih (0 + y)]
      ring
  simpa [qsum] using aux l x

theorem qsum_nonneg (l : List ℚ) (h : ∀ x ∈ l, 0 ≤ x) : 0 ≤ qsum l := by
  induction l with
  | nil => simp [qsum]
  | cons x xs ih =>
    rw [qsum_cons]
    have h1 := h x (by simp)
    have h2 := ih (fun y hy => h y (by simp [hy]))
    linarith

theorem qsum_le_card_mul (l : List ℚ) (c : ℚ) (h : ∀ x ∈ l, x ≤ c) :
    qsum l ≤ c * l.length := by
  induction l with
  | nil => simp [qsum]
  | cons x xs ih =>
    rw [qsum_cons]
    have h1 := h x (by simp)
    have h2 := ih (fun y hy => h y (by simp [hy]))
    have : ((x :: xs).length : ℚ) = (xs.length : ℚ) + 1 := by
      push_cast [List.length_cons]
      ring
    rw [this]
    linarith

theorem jsRound_le (q : ℚ) : (jsRound q : ℚ) ≤ q + 1/2 := Int.floor_le _

theorem lt_jsRound (q : ℚ) : q - 1/2 < (jsRound q : ℚ) := by
  have h := Int.sub_one_lt_floor (q + 1/2)
  unfold jsRound
  linarith

theorem round1_abs_sub (q : ℚ) : |round1 q - q| ≤ 1/20 := by
  have h1 := jsRound_le (q * 10)
  have h2 := lt_jsRound (q * 10)
  rw [abs_le]
  unfold round1
  constructor <;> [linarith; linarith]

theorem round1_bound (q : ℚ) (h0 : 0 ≤ q) (h10 : q ≤ 10) :
    0 ≤ round1 q ∧ round1 q ≤ 10 := by
  have l1 : (0 : ℤ) ≤ jsRound (q * 10) := by
    have hq : (0 : ℚ) ≤ q * 10 + 1/2 := by linarith
    exact Int.floor_nonneg.mpr hq
  have l2 : jsRound (q * 10) ≤ 100 := by
    have hq : q * 10 + 1/2 ≤ (201 : ℚ) / 2 := by linarith
    have hm := Int.floor_le_floor hq
    have h201 : ⌊(201 : ℚ) / 2⌋ = 100 := by
      rw [Int.floor_eq_iff]
      norm_num
    unfold jsRound
    rw [h201] at hm
    exact hm
  constructor
  · unfold round1
    have : (0 : ℚ) ≤ (jsRound (q * 10) : ℚ) := by exact_mod_cast l1
    linarith
  · unfold round1
    have : (jsRound (q * 10) : ℚ) ≤ 100 := by exact_mod_cast l2
    linarith

theorem nonzeroMeanScore_bound (h : HospitalScores)
    (hb : ∀ s ∈ capabilityList h, 0 ≤ s ∧ s ≤ 10) :
    0 ≤ nonzeroMeanScore h ∧ nonzeroMeanScore h ≤ 10 := by
  unfold nonzeroMeanScore
  by_cases hlen : ((capabilityList h).filter (fun s => decide (0 < s))).length = 0
  · simp [hlen]
  · simp only [hlen, if_false]
    have hpos : 0 < (((capabilityList h).filter (fun s => decide (0 < s))).length : ℚ) := by
      have : 0 < ((capabilityList h).filter (fun s => decide (0 < s))).length :=
        Nat.pos_of_ne_zero hlen
      exact_mod_cast this
    have hmem : ∀ x ∈ (capabilityList h).filter (fun s => decide (0 < s)), 0 ≤ x ∧ x ≤ 10 :=
      fun x hx => hb x (List.mem_of_mem_filter hx)
    constructor
    · exact div_nonneg (qsum_nonneg _ fun x hx => (hmem x hx).1) (le_of_lt hpos)
    · rw [div_le_iff₀ hpos]
      have hs := qsum_le_card_mul _ 10 (fun x hx => (hmem x hx).2)
      linarith

-- ------------------------------------------------------------
-- Sorting helper lemmas
-- ------------------------------------------------------------

theorem insertSorted_perm {α : Type} (le : α → α → Bool) (a : α) (l : List α) :
    (insertSorted le a l).Perm (a :: l) := by
  induction l with
  | nil => exact List.Perm.refl _
  | cons b bs ih =>
    unfold insertSorted
    by_cases h : le a b = true
    · simp [h]
    · simp only [h, if_false]
      exact (List.Perm.cons b ih).trans (List.Perm.swap a b bs)

theorem insSort_perm {α : Type} (le : α → α → Bool) (l : List α) :
    (insSort le l).Perm l := by
  induction l with
  | nil => exact List.Perm.refl _
  | cons a as ih =>
    unfold insSort
    exact (insertSorted_perm le a (insSort le as)).trans (List.Perm.cons a ih)

theorem insSort_length {α : Type} (le : α → α → Bool) (l : List α) :
    (insSort le l).length = l.length :=
  (insSort_perm le l).length_eq

theorem pairwise_insertSorted {α : Type} (le : α → α → Bool)
    (htot : ∀ a b, le a b = true ∨ le b a = true)
    (htrans : ∀ a b c, le a b = true → le b c = true → le a c = true)
    (a : α) (l : List α) (hl : l.Pairwise (fun x y => le x y = true)) :
    (insertSorted le a l).Pairwise (fun x y => le x y = true) := by
  induction l with
  | nil => simp [insertSorted]
  | cons b bs ih =>
    obtain ⟨hb, hbs⟩ := List.pairwise_cons.mp hl
    unfold insertSorted
    by_cases h : le a b = true
    · simp only [h, if_true]
      refine List.pairwise_cons.mpr ⟨?_, hl⟩
      intro y hy
      rcases List.mem_cons.mp hy with heq | hy2
      · subst heq
        exact h
      · exact htrans a b y h (hb y hy2)
    · simp only [h, if_false]
      refine List.pairwise_cons.mpr ⟨?_, ih hbs⟩
      intro y hy
      have hmem : y ∈ a :: bs := (insertSorted_perm le a bs).mem_iff.mp hy
      rcases List.mem_cons.mp hmem with heq | hy2
      · subst heq
        rcases htot y b with h1 | h1
        · exact absurd h1 h
        · exact h1
      · exact hb y hy2

theorem pairwise_insSort {α : Type} (le : α → α → Bool)
    (htot : ∀ a b, le a b = true ∨ le b a = true)
    (htrans : ∀ a b c, le a b = true → le b c = true → le a c = true)
    (l : List α) :
    (insSort le l).Pairwise (fun x y => le x y = true) := by
  induction l with
  | nil => simp [insSort]
  | cons a as ih => exact pairwise_insertSorted le htot htrans a _ ih

theorem get?_isSome_iff {α : Type} (l : List α) (n : ℕ) :
    (l.get? n).isSome ↔ n < l.length := by
  constructor
  · intro h
    by_contra hn
    rw [List.get?_eq_getElem?, List.getElem?_eq_none (by omega)] at h
    simp at h
  · intro h
    rw [List.get?_eq_getElem?, List.getElem?_eq_getElem h]
    rfl

-- ------------------------------------------------------------
-- C7: derived averageScore
-- ------------------------------------------------------------

/-- C7, counterexample: for the record with capability scores 1, 1, 2 and
    three zeros (all within the hypothesis range 0..10) the derived
    averageScore is 1.3, the one-decimal rounding of the mean 4/3 of the
    non-zero scores, so it does not equal that mean as the claim
    states. -/
theorem averageScore_rounded_not_exact_mean :
    hospitalAverageScore sampleScores = 13/10 ∧
    nonzeroMeanScore sampleScores = 4/3 ∧
    hospitalAverageScore sampleScores ≠ nonzeroMeanScore sampleScores := by
  have hmean : nonzeroMeanScore sampleScores = 4/3 := by
    unfold nonzeroMeanScore sampleScores capabilityList
    norm_num [List.filter, qsum, List.foldl]
  have havg : hospitalAverageScore sampleScores = 13/10 := by
    unfold hospitalAverageScore
    rw [hmean]
    unfold round1 jsRound
    have hf : ⌊(4 : ℚ)/3 * 10 + 1/2⌋ = 13 := by
      rw [Int.floor_eq_iff]
      norm_num
    rw [hf]
    norm_num
  refine ⟨havg, hmean, ?_⟩
  rw [havg, hmean]
  norm_num

/-- C7, amended: for a hospital record whose six capability scores lie in
    the range 0..10, the derived averageScore is the one-decimal rounding
    of the mean of the non-zero capability scores (hence within 1/20 of
    that mean, and exactly 0 when every score is zero), and it always
    lies in the interval 0..10. -/
theorem averageScore_rounded_mean_bounds (h : HospitalScores)
    (hb : ∀ s ∈ capabilityList h, 0 ≤ s ∧ s ≤ 10) :
    hospitalAverageScore h = round1 (nonzeroMeanScore h) ∧
    0 ≤ hospitalAverageScore h ∧ hospitalAverageScore h ≤ 10 ∧
    |hospitalAverageScore h - nonzeroMeanScore h| ≤ 1/20 ∧
    ((∀ s ∈ capabilityList h, s = 0) → hospitalAverageScore h = 0) := by
  obtain ⟨hm0, hm10⟩ := nonzeroMeanScore_bound h hb
  obtain ⟨hr0, hr10⟩ := round1_bound (nonzeroMeanScore h) hm0 hm10
  refine ⟨rfl, hr0, hr10, round1_abs_sub _, ?_⟩
  intro hz
  have hfil : (capabilityList h).filter (fun s => decide (0 < s)) = [] := by
    apply List.filter_eq_nil_iff.mpr
    intro a ha
    have := hz a ha
    simp [this]
  unfold hospitalAverageScore nonzeroMeanScore
  rw [hfil]
  show round1 0 = 0
  unfold round1 jsRound
  have hf : ⌊(0 : ℚ) * 10 + 1/2⌋ = 0 := by
    rw [Int.floor_eq_iff]
    norm_num
  rw [hf]
  norm_num

/-- C7, witness: the amended theorem at the sample record. -/
theorem averageScore_rounded_mean_bounds_witness :
    hospitalAverageScore sampleScores = round1 (nonzeroMeanScore sampleScores) ∧
    0 ≤ hospitalAverageScore sampleScores ∧ hospitalAverageScore sampleScores ≤ 10 ∧
    |hospitalAverageScore sampleScores - nonzeroMeanScore sampleScores| ≤ 1/20 ∧
    ((∀ s ∈ capabilityList sampleScores, s = 0) → hospitalAverageScore sampleScores = 0) :=
  averageScore_rounded_mean_bounds sampleScores (by decide)

-- ------------------------------------------------------------
-- C9: message log operations
-- ------------------------------------------------------------

/-- C9, counterexample: clearMessages is an exposed operation of the log
    and removes the logged message, so the log interface is not
    append-only as claimed. -/
theorem clearMessages_removes_messages :
    sampleMsg ∈ [sampleMsg] ∧ sampleMsg ∉ clearMessages [sampleMsg] := by
  constructor
  · exact List.mem_singleton.mpr rfl
  · simp [clearMessages]

/-- C9, amended: addMessage only appends one new entry at the end,
    leaving every previously logged message in place unedited, while the
    exposed clearMessages operation resets the log to empty; no other
    operation mutates the log. -/
theorem log_ops_append_or_reset :
    (∀ (log : List ChatMessage) (role : ChatRole) (content freshId : String) (now : ℕ),
        addMessage log role content freshId now = log ++ [⟨freshId, role, content, now⟩] ∧
        (addMessage log role content freshId now).take log.length = log) ∧
    (∀ log : List ChatMessage, clearMessages log = []) := by
  constructor
  · intro log role content freshId now
    refine ⟨rfl, ?_⟩
    simp [addMessage]
  · intro log
    rfl

-- ------------------------------------------------------------
-- C4: parseUserQuery
-- ------------------------------------------------------------

/-- C4, counterexample: the query Show me regional health overview is
    classified as regional_analysis, not overview, because the region
    substring of the word regional matches at a higher priority than the
    overview keyword. -/
theorem parseUserQuery_overview_query_counterexample :
    (parseUserQuery "Show me regional health overview").action = QueryAction.regional_analysis ∧
    QueryAction.regional_analysis ≠ QueryAction.overview := by
  refine ⟨?_, ?_⟩ <;> decide

/-- C4, amended: first-match-wins by the declared priority order maps
    Show me regional health overview to regional_analysis (the region
    substring wins), maps Compare Northern and Ashanti to compare with
    the matched regions listed in gazetteer order (ashanti before
    northern), and maps the empty string to the default overview. -/
theorem parseUserQuery_classification :
    parseUserQuery "Show me regional health overview" =
      ⟨QueryAction.regional_analysis, none, none⟩ ∧
    parseUserQuery "Compare Northern and Ashanti" =
      ⟨QueryAction.compare, some ["ashanti", "northern"], none⟩ ∧
    parseUserQuery "" = ⟨QueryAction.overview, none, none⟩ := by
  refine ⟨?_, ?_, ?_⟩ <;> decide

-- ------------------------------------------------------------
-- C2: gateway model fallback
-- ------------------------------------------------------------

theorem retryable_not_ok (s : ℕ) (h : retryableStatus s = true) : respOk s = false := by
  unfold retryableStatus at h
  rcases Bool.or_eq_true _ _ |>.mp h with h1 | h1
  · have h2 : s = 429 := by simpa using h1
    subst h2
    rfl
  · have h2 : s = 503 := by simpa using h1
    subst h2
    rfl

/-- C2: the fallback loop tries the priority-ordered model list in
    order.  The first conjunct proves, for every model list and every
    assignment of simulated responses, that the loop implements the
    first-non-retryable-decides policy with its attempt/backoff trace:
    429 and 503 record the attempt, wait 500 ms and fall through to the
    next model; the first 2xx short-circuits with that model's result;
    401 stops at once with the credential error; any other non-2xx stops
    at once with the generic upstream error; an exhausted list gives the
    distinct all-unavailable outcome.  The second conjunct runs the
    simulated statuses 429, 503, 200 over the fixed model list: the
    third model's result is returned after exactly three attempts in
    order. -/
theorem gateway_model_fallback_policy :
    (∀ (models : List String) (resp : String → SimResp),
        serveFallback models resp =
          (specFallbackOutcome models resp, specFallbackTrace models resp)) ∧
    serveFallback MODELS demoResponses =
      (GatewayOutcome.success "gpt-3.5-turbo" "r3",
       [FallbackEv.tried "gpt-4o-mini" 429, FallbackEv.waited 500,
        FallbackEv.tried "gpt-4o" 503, FallbackEv.waited 500,
        FallbackEv.tried "gpt-3.5-turbo" 200]) := by
  have main : ∀ (models : List String) (resp : String → SimResp),
      serveFallback models resp =
        (specFallbackOutcome models resp, specFallbackTrace models resp) := by
    intro models resp
    induction models with
    | nil => rfl
    | cons m ms ih =>
      by_cases hr : retryableStatus (resp m).status = true
      · have hok := retryable_not_ok _ hr
        simp [serveFallback, hok, hr, ih, specFallbackOutcome, specFallbackTrace,
          List.find?_cons, List.takeWhile_cons]
      · have hrf : retryableStatus (resp m).status = false := Bool.not_eq_true _ |>.mp hr
        by_cases hok : respOk (resp m).status = true
        · simp [serveFallback, hok, hrf, specFallbackOutcome, specFallbackTrace,
            List.find?_cons, List.takeWhile_cons]
        · have hokf : respOk (resp m).status = false := Bool.not_eq_true _ |>.mp hok
          by_cases h401 : ((resp m).status == 401) = true
          · simp [serveFallback, hokf, hrf, h401, specFallbackOutcome, specFallbackTrace,
              List.find?_cons, List.takeWhile_cons]
          · have h401f : ((resp m).status == 401) = false := Bool.not_eq_true _ |>.mp h401
            simp [serveFallback, hokf, hrf, h401f, specFallbackOutcome, specFallbackTrace,
              List.find?_cons, List.takeWhile_cons]
  exact ⟨main, by decide⟩

-- ------------------------------------------------------------
-- C6: structured-response extraction
-- ------------------------------------------------------------

/-- C6: on a 2xx analysis-mode response, if the first tool call is the
    expected generate_analysis call and its arguments parse, the gateway
    returns the analysis payload with the parsed data; if the arguments
    fail to parse, it degrades to returning the raw content as text; and
    if no structured call was made (no tool call, or a differently named
    one), it returns the plain content as text rather than failing. -/
theorem extractStructured_degradation :
    ∀ {α : Type} (parseArgs : String → Option α) (textOf : α → Option String)
      (message : Option UpMessage),
      (∀ tc, headToolCall message = some tc → tc.name = "generate_analysis" →
        ∀ d, parseArgs tc.args = some d →
          extractStructured parseArgs textOf message =
            GatewayPayload.analysis d ((textOf d).getD "")) ∧
      (∀ tc, headToolCall message = some tc → tc.name = "generate_analysis" →
        parseArgs tc.args = none →
          extractStructured parseArgs textOf message =
            GatewayPayload.plainText (contentText message)) ∧
      (headToolCall message = none →
          extractStructured parseArgs textOf message =
            GatewayPayload.plainText (contentText message)) ∧
      (∀ tc, headToolCall message = some tc → tc.name ≠ "generate_analysis" →
          extractStructured parseArgs textOf message =
            GatewayPayload.plainText (contentText message)) := by
  intro α parseArgs textOf message
  refine ⟨?_, ?_, ?_, ?_⟩
  · intro tc htc hname d hd
    unfold extractStructured
    rw [htc]
    simp [hname, hd]
  · intro tc htc hname hd
    unfold extractStructured
    rw [htc]
    simp [hname, hd]
  · intro htc
    unfold extractStructured
    rw [htc]
  · intro tc htc hname
    unfold extractStructured
    rw [htc]
    simp [hname]

/-- C6, witness: the extraction applied to a concrete parsed call, and to
    a concrete response with no tool call. -/
theorem extractStructured_degradation_witness :
    extractStructured (fun s => if s = "A" then some 7 else none) (fun _ => some "t")
        (some ⟨[⟨"generate_analysis", "A"⟩], some "c"⟩) =
      GatewayPayload.analysis 7 "t" ∧
    extractStructured (fun s => if s = "A" then some (7 : ℕ) else none) (fun _ => some "t")
        (some ⟨[], some "c"⟩) =
      GatewayPayload.plainText "c" := by
  constructor
  · exact (@extractStructured_degradation ℕ (fun s => if s = "A" then some 7 else none)
      (fun _ => some "t") (some ⟨[⟨"generate_analysis", "A"⟩], some "c"⟩)).1
      ⟨"generate_analysis", "A"⟩ rfl rfl 7 (by simp)
  · exact (@extractStructured_degradation ℕ (fun s => if s = "A" then some 7 else none)
      (fun _ => some "t") (some ⟨[], some "c"⟩)).2.2.1 rfl

-- ------------------------------------------------------------
-- C8: correlation identifiers and request application
-- ------------------------------------------------------------

/-- C8, counterexample: the outgoing assisted-mode request carries no
    correlation identifier.  The wire body is a pure function of the
    visible conversation content, so the reachable event sequence
    send hi, error completion, clear log, send hi again issues two
    distinct requests with byte-identical wire bodies; no identifier
    read off the wire can distinguish the superseded first request from
    the current one, refuting the claimed correlation-id mechanism. -/
theorem chatRequest_no_correlation_id :
    (stepSend demoS0 "hi" "id1" 0 "general" "hd" "rd").2 = some demoBody ∧
    demoS3.log = [] ∧ demoS3.isProcessing = false ∧
    (stepSend demoS3 "hi" "id2" 5 "general" "hd" "rd").2 = some demoBody ∧
    ¬ issuedBodiesDistinct [demoBody, demoBody] := by
  refine ⟨rfl, rfl, rfl, rfl, ?_⟩
  intro hp
  have := (List.pairwise_cons.mp hp).1 demoBody (by simp)
  exact this rfl

/-- C8, amended: there is no correlation identifier; instead the UI
    never issues a second request while one is in flight (handleSend is
    a no-op while isProcessing), and the completion callbacks apply the
    outcome of the single in-flight request unconditionally, consulting
    no request identity: onDone commits the accumulated response exactly
    when it is non-empty and releases the in-flight flag. -/
theorem chat_single_flight_unconditional_apply :
    (∀ (s : OrchState) (q i : String) (n : ℕ) (ro hd rd : String),
        s.isProcessing = true → stepSend s q i n ro hd rd = (s, none)) ∧
    (∀ (s : OrchState) (t i : String) (n : ℕ), t ≠ "" →
        (applyDone s t i n).log = s.log ++ [⟨i, ChatRole.assistant, t, n⟩] ∧
        (applyDone s t i n).isProcessing = false) ∧
    (∀ (s : OrchState) (i : String) (n : ℕ),
        (applyDone s "" i n).log = s.log ∧ (applyDone s "" i n).isProcessing = false) := by
  refine ⟨?_, ?_, ?_⟩
  · intro s q i n ro hd rd hp
    unfold stepSend
    rw [hp]
    simp
  · intro s t i n ht
    unfold applyDone addMessage
    simp [ht]
  · intro s i n
    unfold applyDone
    simp

/-- C8, witness: the amended theorem at concrete states: a send during
    processing is dropped, and a non-empty completion is appended. -/
theorem chat_single_flight_witness :
    stepSend ⟨[], true, ""⟩ "hello" "id9" 3 "general" "h" "r" = (⟨[], true, ""⟩, none) ∧
    (applyDone ⟨[], false, ""⟩ "ok" "id7" 1).log = [⟨"id7", ChatRole.assistant, "ok", 1⟩] := by
  constructor
  · exact chat_single_flight_unconditional_apply.1 ⟨[], true, ""⟩ "hello" "id9" 3 "general" "h" "r" rfl
  · have h := (chat_single_flight_unconditional_apply.2.1 ⟨[], false, ""⟩ "ok" "id7" 1 (by decide)).1
    simpa using h

-- ------------------------------------------------------------
-- C5: empty-collection behaviour of the deterministic engine
-- ------------------------------------------------------------

/-- C5, counterexample: generateOverview on an empty hospital list is not
    guarded: the average divides by zero (NaN, modelled none), the
    nearest-rank quartile helper reads index 0 of an empty array
    (undefined, modelled none), and so does the facilities-per-million
    figure.  No explicit no-match result is produced: the result is kept
    in the normal overview shape with the NaN/undefined values inside,
    contradicting the claim that every function guards the empty
    case. -/
theorem generateOverview_empty_unguarded :
    (generateOverview [] []).averageScore = none ∧
    (generateOverview [] []).quartiles = (none, none, none) ∧
    calculatePercentile [] 50 = none ∧
    (generateOverview [] []).hospitalsPerMillion = none := by
  refine ⟨?_, ?_, ?_, ?_⟩
  · simp [generateOverview, jdiv, qsum]
  · simp [generateOverview, getQuartiles, calculatePercentile, insSort]
  · simp [calculatePercentile, insSort]
  · simp [generateOverview, jdiv, qsum]

/-- C5, amended: the engine does not guard empty filtered collections
    with an explicit no-match result; instead the overview average and
    the nearest-rank percentile of the hospital scores are NaN/undefined
    exactly when the hospital list is empty, and well defined otherwise.
    (The percentile bound needs the percentile argument in the 0..100
    range, as used by getQuartiles.) -/
theorem overview_guards_iff_nonempty :
    ∀ (hospitals : List Hospital) (regions : List Region) (p : ℚ),
      0 ≤ p → p ≤ 100 →
      (((generateOverview hospitals regions).averageScore).isSome ↔ hospitals ≠ []) ∧
      ((calculatePercentile (hospitals.map (·.averageScore)) p).isSome ↔ hospitals ≠ []) := by
  intro hospitals regions p hp0 hp100
  constructor
  · by_cases hh : hospitals = []
    · subst hh
      simp [generateOverview, jdiv, qsum]
    · have hlen : hospitals.length ≠ 0 := by
        simpa [List.length_eq_zero] using hh
      have hq : ((hospitals.length : ℚ)) ≠ 0 := by exact_mod_cast hlen
      simp [generateOverview, jdiv, hq, hh]
  · by_cases hh : hospitals = []
    · subst hh
      simp [calculatePercentile, insSort]
    · have hlen : hospitals.length ≠ 0 := by
        simpa [List.length_eq_zero] using hh
      have hpos : 0 < (hospitals.map (·.averageScore)).length := by
        simpa [List.length_map] using Nat.pos_of_ne_zero hlen
      unfold calculatePercentile
      set values := hospitals.map (·.averageScore) with hv
      have hceil : ⌈p / 100 * (values.length : ℚ)⌉ ≤ (values.length : ℤ) := by
        have h1 : p / 100 ≤ 1 := (div_le_one (by norm_num)).mpr hp100
        have hnn : (0 : ℚ) ≤ (values.length : ℚ) := by positivity
        have h2 : p / 100 * (values.length : ℚ) ≤ (values.length : ℚ) :=
          mul_le_of_le_one_left hnn h1
        calc ⌈p / 100 * (values.length : ℚ)⌉ ≤ ⌈((values.length : ℕ) : ℚ)⌉ :=
              Int.ceil_le_ceil h2
          _ = (values.length : ℤ) := Int.ceil_natCast _
      have hidx : (max 0 (⌈p / 100 * (values.length : ℚ)⌉ - 1)).toNat < values.length := by
        rcases le_or_lt (⌈p / 100 * (values.length : ℚ)⌉ - 1) 0 with hle | hgt
        · have : max 0 (⌈p / 100 * (values.length : ℚ)⌉ - 1) = 0 := by omega
          rw [this]
          simpa using hpos
        · have : max 0 (⌈p / 100 * (values.length : ℚ)⌉ - 1) =
              ⌈p / 100 * (values.length : ℚ)⌉ - 1 := by omega
          rw [this]
          omega
      have hlen2 : (insSort (fun a b => decide (a ≤ b)) values).length = values.length :=
        insSort_length _ _
      rw [show (hospitals ≠ []) = True from by simp [hh]]
      simp only [iff_true]
      rw [get?_isSome_iff, hlen2]
      exact hidx

/-- C5, witness: the amended theorem at a one-hospital dataset and the
    median percentile. -/
theorem overview_guards_iff_nonempty_witness :
    (((generateOverview [demoOverviewHosp] []).averageScore).isSome ↔
        [demoOverviewHosp] ≠ ([] : List Hospital)) ∧
    ((calculatePercentile ([demoOverviewHosp].map (·.averageScore)) 50).isSome ↔
        [demoOverviewHosp] ≠ ([] : List Hospital)) :=
  overview_guards_iff_nonempty [demoOverviewHosp] [] 50 (by norm_num) (by norm_num)

-- ------------------------------------------------------------
-- C1: medical-desert rule, composite score and ordering
-- ------------------------------------------------------------

/-- C1: for every Math.log model, hospital collection and region
    collection: a region row is flagged a desert exactly when its (exact,
    unrounded) facilities-per-100k is below 0.5 or its average facility
    score is below 3; the stored composite desertScore is the composite
    (facilitiesPer100k * avgFacilityScore) / log(areaKm2 + 1), rounded to
    three decimals as the code stores it; and the returned per-region
    list is the ascending-by-desertScore (stable) sort of the rows of the
    regions with truthy population and area - worst first. -/
theorem analyzeMedicalDeserts_desert_rule :
    ∀ (rlog : ℚ → ℚ) (hospitals : List Hospital) (regions : List Region),
      (∀ r ∈ regions,
        ((desertEntry rlog hospitals r).isDesert = true ↔
          (trueHpc hospitals r < 1/2 ∨ trueAvgScore hospitals r < 3)) ∧
        (desertEntry rlog hospitals r).desertScore =
          round3 (trueHpc hospitals r * trueAvgScore hospitals r /
            rlog (r.areaKm2.getD 0 + 1))) ∧
      (analyzeMedicalDeserts rlog hospitals regions).regionData.Pairwise
        (fun a b => a.desertScore ≤ b.desertScore) ∧
      (analyzeMedicalDeserts rlog hospitals regions).regionData.Perm
        ((regions.filter (fun r => jsTruthy r.population2021 && jsTruthy r.areaKm2)).map
          (desertEntry rlog hospitals)) := by
  intro rlog hospitals regions
  refine ⟨?_, ?_, ?_⟩
  · intro r _
    constructor
    · show (decide (trueHpc hospitals r < 1/2) || decide (trueAvgScore hospitals r < 3)) = true ↔ _
      simp [Bool.or_eq_true, decide_eq_true_iff]
    · rfl
  · have htot : ∀ a b : DesertEntry,
        decide (a.desertScore ≤ b.desertScore) = true ∨
        decide (b.desertScore ≤ a.desertScore) = true := by
      intro a b
      rcases le_total a.desertScore b.desertScore with h | h
      · exact Or.inl (decide_eq_true h)
      · exact Or.inr (decide_eq_true h)
    have htrans : ∀ a b c : DesertEntry,
        decide (a.desertScore ≤ b.desertScore) = true →
        decide (b.desertScore ≤ c.desertScore) = true →
        decide (a.desertScore ≤ c.desertScore) = true := by
      intro a b c h1 h2
      exact decide_eq_true (le_trans (of_decide_eq_true h1) (of_decide_eq_true h2))
    have hp := pairwise_insSort (fun a b : DesertEntry => decide (a.desertScore ≤ b.desertScore))
      htot htrans
      ((regions.filter (fun r => jsTruthy r.population2021 && jsTruthy r.areaKm2)).map
        (desertEntry rlog hospitals))
    exact hp.imp (fun h => of_decide_eq_true h)
  · exact insSort_perm _ _

/-- C1, witness: the desert rule at a concrete one-hospital, one-region
    dataset. -/
theorem analyzeMedicalDeserts_desert_rule_witness :
    ((desertEntry demoRlog [demoDesertHosp] demoDesertRegion).isDesert = true ↔
      (trueHpc [demoDesertHosp] demoDesertRegion < 1/2 ∨
        trueAvgScore [demoDesertHosp] demoDesertRegion < 3)) ∧
    (desertEntry demoRlog [demoDesertHosp] demoDesertRegion).desertScore =
      round3 (trueHpc [demoDesertHosp] demoDesertRegion *
        trueAvgScore [demoDesertHosp] demoDesertRegion /
        demoRlog (demoDesertRegion.areaKm2.getD 0 + 1)) :=
  (analyzeMedicalDeserts_desert_rule demoRlog [demoDesertHosp] [demoDesertRegion]).1
    demoDesertRegion (by simp)

-- ------------------------------------------------------------
-- C10: substring region assignment and double counting
-- ------------------------------------------------------------

/-- C10: a hospital is counted toward a region exactly when the
    lowercased hospital region string contains the lowercased canonical
    region name as a substring; consequently a hospital whose region
    string is Western North is counted both in the aggregates of the
    Western North region and in those of the Western region (whose
    canonical name is a substring of the former). -/
theorem regionMatch_substring_double_count :
    (∀ (hospitals : List Hospital) (r : Region) (h : Hospital),
        h ∈ regionHospitals hospitals r ↔
          (h ∈ hospitals ∧
            strIncludes (toLowerStr h.region) (toLowerStr r.canonicalName) = true)) ∧
    regionHospitals [wnHospital] westernRegion = [wnHospital] ∧
    regionHospitals [wnHospital] westernNorthRegion = [wnHospital] ∧
    (desertEntry demoRlog10 [wnHospital] westernRegion).hospitalCount = 1 ∧
    (desertEntry demoRlog10 [wnHospital] westernNorthRegion).hospitalCount = 1 := by
  refine ⟨?_, ?_, ?_, ?_, ?_⟩
  · intro hospitals r h
    unfold regionHospitals regionMatch
    simp [List.mem_filter]
  · decide
  · decide
  · decide
  · decide

-- ------------------------------------------------------------
-- C3 development: split-at-newline lemmas
-- ------------------------------------------------------------

theorem splitNL_none_iff (l : List Char) : splitNL l = none ↔ '\n' ∉ l := by
  induction l with
  | nil => simp [splitNL]
  | cons c cs ih =>
    unfold splitNL
    by_cases hc : c = '\n'
    · subst hc
      simp
    · simp only [if_neg hc, Option.map_eq_none', ih, List.mem_cons]
      constructor
      · intro h hm
        rcases hm with hm | hm
        · exact hc hm.symm
        · exact h hm
      · intro h hm
        exact h (Or.inr hm)

theorem splitNL_some_shape : ∀ (l line rest : List Char), splitNL l = some (line, rest) →
    l = line ++ '\n' :: rest ∧ '\n' ∉ line := by
  intro l
  induction l with
  | nil =>
    intro line rest h
    simp [splitNL] at h
  | cons c cs ih =>
    intro line rest h
    unfold splitNL at h
    by_cases hc : c = '\n'
    · subst hc
      rw [if_pos rfl, Option.some_inj, Prod.mk.injEq] at h
      obtain ⟨h1, h2⟩ := h
      subst h1
      subst h2
      exact ⟨rfl, by simp⟩
    · rw [if_neg hc, Option.map_eq_some'] at h
      obtain ⟨⟨l1, r1⟩, hp, heq⟩ := h
      rw [Prod.mk.injEq] at heq
      obtain ⟨h1, h2⟩ := heq
      subst h1
      subst h2
      obtain ⟨hsh, hnl⟩ := ih l1 r1 hp
      constructor
      · rw [hsh]
        rfl
      · intro hm
        rcases List.mem_cons.mp hm with hm | hm
        · exact hc hm.symm
        · exact hnl hm

theorem splitNL_of_shape (line rest : List Char) (hnl : '\n' ∉ line) :
    splitNL (line ++ '\n' :: rest) = some (line, rest) := by
  induction line with
  | nil => simp [splitNL]
  | cons c cs ih =>
    have hc : c ≠ '\n' := fun h => hnl (by rw [← h]; exact List.mem_cons_self c cs)
    have hcs : '\n' ∉ cs := fun h => hnl (List.mem_cons_of_mem c h)
    simp [splitNL, hc, ih hcs]

theorem splitNL_append_some (a b line rest : List Char) (h : splitNL a = some (line, rest)) :
    splitNL (a ++ b) = some (line, rest ++ b) := by
  obtain ⟨hsh, hnl⟩ := splitNL_some_shape a line rest h
  subst hsh
  rw [List.append_assoc]
  exact splitNL_of_shape line (rest ++ b) hnl

theorem shape_inj (l1 l2 r1 r2 : List Char) (h1 : '\n' ∉ l1) (h2 : '\n' ∉ l2)
    (h : l1 ++ '\n' :: r1 = l2 ++ '\n' :: r2) : l1 = l2 ∧ r1 = r2 := by
  have e1 := splitNL_of_shape l1 r1 h1
  have e2 := splitNL_of_shape l2 r2 h2
  rw [h] at e1
  rw [e2, Option.some_inj, Prod.mk.injEq] at e1
  exact ⟨e1.1.symm, e1.2.symm⟩

-- ------------------------------------------------------------
-- C3 development: trailing carriage returns
-- ------------------------------------------------------------

theorem exists_replicate_decomp (l : List Char) :
    ∃ k, l = fullStrip l ++ List.replicate k '\r' ∧ (fullStrip l).getLast? ≠ some '\r' := by
  refine ⟨(l.reverse.takeWhile (· == '\r')).length, ?_, ?_⟩
  · unfold fullStrip
    have hsplit := List.takeWhile_append_dropWhile (fun c => c == '\r') l.reverse
    have htake : l.reverse.takeWhile (· == '\r') =
        List.replicate (l.reverse.takeWhile (· == '\r')).length '\r' := by
      apply List.eq_replicate_of_mem
      intro c hc
      have := List.mem_takeWhile_imp hc
      simpa using this
    calc l = l.reverse.reverse := (List.reverse_reverse l).symm
      _ = (l.reverse.takeWhile (· == '\r') ++ l.reverse.dropWhile (· == '\r')).reverse := by
            rw [hsplit]
      _ = (l.reverse.dropWhile (· == '\r')).reverse ++
            (l.reverse.takeWhile (· == '\r')).reverse := by
            rw [List.reverse_append]
      _ = fullStrip l ++ List.replicate (l.reverse.takeWhile (· == '\r')).length '\r' := by
            unfold fullStrip
            congr 1
            conv_lhs => rw [htake]
            rw [List.reverse_replicate]
  · intro hlast
    unfold fullStrip at hlast
    rw [List.getLast?_reverse] at hlast
    have hh := List.head?_dropWhile_not (fun c => c == '\r') l.reverse
    rw [hlast] at hh
    simp at hh

theorem leadsWith_length : ∀ (pat l : List Char), leadsWith pat l = true → pat.length ≤ l.length := by
  intro pat
  induction pat with
  | nil =>
    intro l h
    simp
  | cons p ps ih =>
    intro l h
    cases l with
    | nil => simp [leadsWith] at h
    | cons c cs =>
      simp only [leadsWith, Bool.and_eq_true] at h
      have := ih cs h.2
      simp only [List.length_cons]
      omega

theorem leadsWith_append_replicate (pat F : List Char) (k : ℕ) (hp : '\r' ∉ pat) :
    leadsWith pat (F ++ List.replicate k '\r') = leadsWith pat F := by
  induction pat generalizing F with
  | nil => rfl
  | cons p ps ih =>
    cases F with
    | nil =>
      cases k with
      | zero => rfl
      | succ k2 =>
        have hp1 : (p == '\r') = false := by
          have : p ≠ '\r' := fun h => hp (by rw [h]; exact List.mem_cons_self _ _)
          simpa using this
        simp [List.replicate_succ, leadsWith, hp1]
    | cons c cs =>
      simp only [List.cons_append, leadsWith, List.append_eq]
      rw [ih cs (fun h => hp (List.mem_cons_of_mem p h))]

theorem dropWhile_replicate_cr (k : ℕ) :
    List.dropWhile isWS (List.replicate k '\r') = [] := by
  rw [List.dropWhile_eq_nil_iff]
  intro c hc
  rw [List.eq_of_mem_replicate hc]
  rfl

theorem dropWhileCR_replicate (k : ℕ) :
    List.dropWhile (· == '\r') (List.replicate k '\r') = [] := by
  rw [List.dropWhile_eq_nil_iff]
  intro c hc
  simp [List.eq_of_mem_replicate hc]

theorem trimChars_append_replicate (x : List Char) (k : ℕ) :
    trimChars (x ++ List.replicate k '\r') = trimChars x := by
  unfold trimChars
  rw [List.dropWhile_append]
  by_cases he : (List.dropWhile isWS x).isEmpty = true
  · rw [if_pos he]
    rw [dropWhile_replicate_cr]
    have h2 : List.dropWhile isWS x = [] := by
      cases hd : List.dropWhile isWS x with
      | nil => rfl
      | cons a as =>
        rw [hd] at he
        simp at he
    rw [h2]
  · rw [if_neg he]
    rw [List.reverse_append, List.reverse_replicate, List.dropWhile_append,
      dropWhile_replicate_cr]
    simp

theorem stripCR_no_cr (F : List Char) (hF : F.getLast? ≠ some '\r') : stripCR F = F := by
  unfold stripCR
  rw [if_neg hF]

theorem stripCR_append_replicate (F : List Char) (k : ℕ) (hF : F.getLast? ≠ some '\r') :
    stripCR (F ++ List.replicate k '\r') = F ++ List.replicate (k - 1) '\r' := by
  cases k with
  | zero =>
    simp only [List.replicate, List.append_nil, Nat.zero_sub]
    exact stripCR_no_cr F hF
  | succ k2 =>
    have hlast : (F ++ List.replicate (k2 + 1) '\r').getLast? = some '\r' := by
      rw [List.replicate_succ', ← List.append_assoc, List.getLast?_concat]
    unfold stripCR
    rw [if_pos hlast, List.replicate_succ', ← List.append_assoc, List.dropLast_concat]
    simp

theorem fullStrip_append_replicate (F : List Char) (k : ℕ) (hF : F.getLast? ≠ some '\r') :
    fullStrip (F ++ List.replicate k '\r') = F := by
  unfold fullStrip
  rw [List.reverse_append, List.reverse_replicate, List.dropWhile_append,
    dropWhileCR_replicate]
  simp only [List.isEmpty_nil, if_true]
  cases hr : F.reverse with
  | nil =>
    have : F = [] := by
      have := congrArg List.reverse hr
      simpa using this
    simp [this]
  | cons c cs =>
    have hc : (c == '\r') = false := by
      have hh : F.getLast? = some c := by
        rw [← List.head?_reverse, hr]
        rfl
      by_contra hcc
      simp only [Bool.not_eq_false, beq_iff_eq] at hcc
      exact hF (by rw [hh, hcc])
    rw [List.dropWhile_cons, if_neg (by simp [hc])]
    have := congrArg List.reverse hr
    simpa using this.symm

theorem lineAct_cr (pf : List Char → Option (Option (List Char))) (F : List Char) (k : ℕ)
    (hF : F.getLast? ≠ some '\r') :
    lineAct pf (F ++ List.replicate k '\r') =
      match lineAct pf F with
      | .push _ => .push (F ++ List.replicate (k - 1) '\r')
      | a => a := by
  simp only [lineAct, stripCR_append_replicate F k hF, stripCR_no_cr F hF,
    leadsWith_append_replicate [':'] F (k - 1) (by decide),
    trimChars_append_replicate F (k - 1),
    leadsWith_append_replicate dataMarker F (k - 1) (by decide)]
  by_cases h1 : (leadsWith [':'] F || (trimChars F).isEmpty) = true
  · simp [h1]
  · rw [if_neg h1, if_neg h1]
    by_cases h2 : leadsWith dataMarker F = true
    · have hlen : 6 ≤ F.length := by
        have := leadsWith_length dataMarker F h2
        simpa [dataMarker] using this
      rw [List.drop_append_of_le_length hlen, trimChars_append_replicate]
      simp only [h2, Bool.not_true, Bool.false_eq_true, if_false]
      by_cases h3 : trimChars (F.drop 6) = doneChars
      · simp [h3]
      · rw [if_neg h3, if_neg h3]
        cases hp : pf (trimChars (F.drop 6)) with
        | none => rfl
        | some o =>
          cases o with
          | none => rfl
          | some t =>
            by_cases ht : t = []
            · simp [ht]
            · simp [ht]
    · have h2f : leadsWith dataMarker F = false := Bool.not_eq_true _ |>.mp h2
      simp [h2f]

theorem lineAct_push_payload (pf : List Char → Option (Option (List Char))) (l p : List Char)
    (h : lineAct pf l = .push p) : p = stripCR l := by
  unfold lineAct at h
  by_cases h1 : (leadsWith [':'] (stripCR l) || (trimChars (stripCR l)).isEmpty) = true
  · rw [if_pos h1] at h
    exact absurd h (by simp)
  · rw [if_neg h1] at h
    by_cases h2 : leadsWith dataMarker (stripCR l) = true
    · simp only [h2, Bool.not_true, Bool.false_eq_true, if_false] at h
      by_cases h3 : trimChars ((stripCR l).drop 6) = doneChars
      · rw [if_pos h3] at h
        exact absurd h (by simp)
      · rw [if_neg h3] at h
        cases hp : pf (trimChars ((stripCR l).drop 6)) with
        | none =>
          rw [hp] at h
          cases h
          rfl
        | some o =>
          rw [hp] at h
          cases o with
          | none => exact absurd h (by simp)
          | some t =>
            by_cases ht : t = []
            · simp [ht] at h
            · simp [ht] at h
    · have h2f : leadsWith dataMarker (stripCR l) = false := Bool.not_eq_true _ |>.mp h2
      rw [h2f] at h
      exact absurd h (by simp)

theorem fullStrip_stripCR (l : List Char) : fullStrip (stripCR l) = fullStrip l := by
  obtain ⟨k, hdec, hlast⟩ := exists_replicate_decomp l
  conv_lhs => rw [hdec]
  conv_rhs => rw [hdec]
  rw [stripCR_append_replicate _ _ hlast, fullStrip_append_replicate _ _ hlast,
    fullStrip_append_replicate _ _ hlast]

theorem noNL_stripCR (l : List Char) (h : '\n' ∉ l) : '\n' ∉ stripCR l := by
  unfold stripCR
  by_cases hl : l.getLast? = some '\r'
  · rw [if_pos hl]
    intro hm
    exact h (List.dropLast_subset l hm)
  · rw [if_neg hl]
    exact h

theorem noNL_fullStrip (l : List Char) (h : '\n' ∉ l) : '\n' ∉ fullStrip l := by
  obtain ⟨k, hdec, _⟩ := exists_replicate_decomp l
  intro hm
  exact h (by rw [hdec]; exact List.mem_append_left _ hm)

/-- lines with the same fully CR-stripped form act identically, except
    that the stored push-back payloads again agree up to trailing CRs. -/
theorem lineAct_rel (pf : List Char → Option (Option (List Char))) (l1 l2 : List Char)
    (h : fullStrip l1 = fullStrip l2) (_h1 : '\n' ∉ l1) (h2 : '\n' ∉ l2) :
    lineAct pf l1 = lineAct pf l2 ∨
      (∃ p1 p2, lineAct pf l1 = .push p1 ∧ lineAct pf l2 = .push p2 ∧
        fullStrip p1 = fullStrip p2 ∧ '\n' ∉ p1 ∧ '\n' ∉ p2) := by
  obtain ⟨k1, hd1, hl1⟩ := exists_replicate_decomp l1
  obtain ⟨k2, hd2, hl2⟩ := exists_replicate_decomp l2
  rw [h] at hd1 hl1
  have e1 := lineAct_cr pf (fullStrip l2) k1 hl1
  rw [← hd1] at e1
  have e2 := lineAct_cr pf (fullStrip l2) k2 hl2
  rw [← hd2] at e2
  cases ha : lineAct pf (fullStrip l2) with
  | push q =>
    rw [ha] at e1 e2
    refine Or.inr ⟨_, _, e1, e2, ?_, ?_, ?_⟩
    · rw [fullStrip_append_replicate _ _ hl1, fullStrip_append_replicate _ _ hl1]
    · intro hm
      rcases List.mem_append.mp hm with hm | hm
      · exact (noNL_fullStrip l2 h2) hm
      · exact absurd (List.eq_of_mem_replicate hm) (by decide)
    · intro hm
      rcases List.mem_append.mp hm with hm | hm
      · exact (noNL_fullStrip l2 h2) hm
      · exact absurd (List.eq_of_mem_replicate hm) (by decide)
  | skip =>
    rw [ha] at e1 e2
    exact Or.inl (e1.trans e2.symm)
  | emit t =>
    rw [ha] at e1 e2
    exact Or.inl (e1.trans e2.symm)
  | term =>
    rw [ha] at e1 e2
    exact Or.inl (e1.trans e2.symm)

/-- a pushed-back line pushes again when re-processed. -/
theorem lineAct_push_again (pf : List Char → Option (Option (List Char))) (l p : List Char)
    (h : lineAct pf l = .push p) : ∃ p2, lineAct pf p = .push p2 := by
  obtain ⟨k, hd, hl⟩ := exists_replicate_decomp l
  have e1 := lineAct_cr pf (fullStrip l) k hl
  rw [← hd] at e1
  cases ha : lineAct pf (fullStrip l) with
  | push q =>
    rw [ha] at e1
    rw [h] at e1
    have hp : p = fullStrip l ++ List.replicate (k - 1) '\r' := by
      cases e1
      rfl
    have e2 := lineAct_cr pf (fullStrip l) (k - 1) hl
    rw [← hp] at e2
    rw [ha] at e2
    exact ⟨_, e2⟩
  | skip =>
    rw [ha, h] at e1
    cases e1
  | emit t =>
    rw [ha, h] at e1
    cases e1
  | term =>
    rw [ha, h] at e1
    cases e1

-- ------------------------------------------------------------
-- C3 development: drain equations and residual shapes
-- ------------------------------------------------------------

theorem drainF_congr (pf : List Char → Option (Option (List Char))) :
    ∀ (f g : ℕ) (buf : List Char), buf.length ≤ f → buf.length ≤ g →
      drainF pf f buf = drainF pf g buf := by
  intro f
  induction f with
  | zero =>
    intro g buf hf hg
    have hb : buf = [] := List.length_eq_zero.mp (Nat.le_zero.mp hf)
    subst hb
    cases g with
    | zero => rfl
    | succ g2 => rfl
  | succ f ih =>
    intro g buf hf hg
    cases g with
    | zero =>
      have hb : buf = [] := List.length_eq_zero.mp (Nat.le_zero.mp hg)
      subst hb
      rfl
    | succ g2 =>
      show drainF pf (f + 1) buf = drainF pf (g2 + 1) buf
      unfold drainF
      split
      next => rfl
      next line rest heq =>
        obtain ⟨hsh, hnl⟩ := splitNL_some_shape buf line rest heq
        have hr1 : rest.length ≤ f := by
          subst hsh
          rw [List.length_append, List.length_cons] at hf
          omega
        have hr2 : rest.length ≤ g2 := by
          subst hsh
          rw [List.length_append, List.length_cons] at hg
          omega
        split
        next => exact ih g2 rest hr1 hr2
        next t => rw [ih g2 rest hr1 hr2]
        next => rfl
        next stored => rfl

theorem drain_eq_drainF (pf : List Char → Option (Option (List Char))) (f : ℕ)
    (buf : List Char) (h : buf.length ≤ f) : drain pf buf = drainF pf f buf := by
  unfold drain
  exact drainF_congr pf buf.length f buf le_rfl h

theorem drain_unfold (pf : List Char → Option (Option (List Char))) (buf : List Char) :
    drain pf buf =
      match splitNL buf with
      | none => ([], buf, DrainStop.noNL)
      | some (line, rest) =>
        match lineAct pf line with
        | .skip => drain pf rest
        | .emit t => (t :: (drain pf rest).1, (drain pf rest).2)
        | .term => ([], [], DrainStop.finished)
        | .push stored => ([], stored ++ '\n' :: rest, DrainStop.stalled) := by
  rw [drain_eq_drainF pf (buf.length + 1) buf (by omega)]
  show drainF pf (buf.length + 1) buf = _
  unfold drainF
  split
  next => rfl
  next line rest heq =>
    obtain ⟨hsh, hnl⟩ := splitNL_some_shape buf line rest heq
    have hr : rest.length ≤ buf.length := by
      subst hsh
      rw [List.length_append, List.length_cons]
      omega
    split
    next => exact (drain_eq_drainF pf buf.length rest hr).symm
    next t => rw [drain_eq_drainF pf buf.length rest hr]
    next => rfl
    next stored => rfl

theorem drain_of_noNL (pf : List Char → Option (Option (List Char))) (buf : List Char)
    (h : '\n' ∉ buf) : drain pf buf = ([], buf, DrainStop.noNL) := by
  have hs : splitNL buf = none := (splitNL_none_iff buf).mpr h
  rw [drain_unfold, hs]

theorem drain_of_push (pf : List Char → Option (Option (List Char))) (L rest p : List Char)
    (hnl : '\n' ∉ L) (h : lineAct pf L = .push p) :
    drain pf (L ++ '\n' :: rest) = ([], p ++ '\n' :: rest, DrainStop.stalled) := by
  rw [drain_unfold, splitNL_of_shape L rest hnl]
  simp only [h]

theorem drain_residual (pf : List Char → Option (Option (List Char))) :
    ∀ (n : ℕ) (buf : List Char), buf.length ≤ n →
      ((drain pf buf).2.2 = DrainStop.noNL → '\n' ∉ (drain pf buf).2.1) ∧
      ((drain pf buf).2.2 = DrainStop.stalled →
        ∃ L rest p, (drain pf buf).2.1 = L ++ '\n' :: rest ∧ '\n' ∉ L ∧
          lineAct pf L = .push p) ∧
      ((drain pf buf).2.2 = DrainStop.finished → (drain pf buf).2.1 = []) := by
  intro n
  induction n with
  | zero =>
    intro buf hb
    have h0 : buf = [] := List.length_eq_zero.mp (Nat.le_zero.mp hb)
    subst h0
    rw [drain_of_noNL pf [] (by simp)]
    refine ⟨fun _ => by simp, fun hc => ?_, fun hc => ?_⟩
    · exact absurd hc (by decide)
    · exact absurd hc (by decide)
  | succ n ih =>
    intro buf hb
    rw [drain_unfold]
    split
    next heq =>
      refine ⟨fun _ => (splitNL_none_iff _).mp heq, fun hc => ?_, fun hc => ?_⟩
      · exact absurd hc (by simp)
      · exact absurd hc (by simp)
    next line rest heq =>
      obtain ⟨hsh, hnl⟩ := splitNL_some_shape buf line rest heq
      have hr : rest.length ≤ n := by
        subst hsh
        rw [List.length_append, List.length_cons] at hb
        omega
      split
      next => exact ih rest hr
      next t => exact ih rest hr
      next =>
        refine ⟨fun hc => ?_, fun hc => ?_, fun _ => rfl⟩
        · exact absurd hc (by decide)
        · exact absurd hc (by decide)
      next stored ha =>
        refine ⟨fun hc => absurd hc (by simp), fun _ => ?_,
          fun hc => absurd hc (by simp)⟩
        obtain ⟨p2, hp2⟩ := lineAct_push_again pf line stored ha
        have hst : stored = stripCR line := lineAct_push_payload pf line stored ha
        exact ⟨stored, rest, p2, rfl, by rw [hst]; exact noNL_stripCR line hnl, hp2⟩

theorem drain_shape (pf : List Char → Option (Option (List Char))) (L rest : List Char)
    (hnl : '\n' ∉ L) :
    drain pf (L ++ '\n' :: rest) =
      match lineAct pf L with
      | .skip => drain pf rest
      | .emit t => (t :: (drain pf rest).1, (drain pf rest).2)
      | .term => ([], [], DrainStop.finished)
      | .push stored => ([], stored ++ '\n' :: rest, DrainStop.stalled) := by
  rw [drain_unfold, splitNL_of_shape L rest hnl]

theorem bufR_refl (b : List Char) : BufR b b := Or.inl rfl

theorem bufR_append (b1 b2 c : List Char) (h : BufR b1 b2) : BufR (b1 ++ c) (b2 ++ c) := by
  rcases h with rfl | ⟨l1, l2, rest, h1, h2, hf, e1, e2⟩
  · exact Or.inl rfl
  · refine Or.inr ⟨l1, l2, rest ++ c, h1, h2, hf, ?_, ?_⟩
    · rw [e1, List.append_assoc]
      rfl
    · rw [e2, List.append_assoc]
      rfl

theorem bufR_trans (b1 b2 b3 : List Char) (h12 : BufR b1 b2) (h23 : BufR b2 b3) :
    BufR b1 b3 := by
  rcases h12 with rfl | ⟨l1, l2, rest, hn1, hn2, hf, e1, e2⟩
  · exact h23
  · rcases h23 with rfl | ⟨l2b, l3, rest2, hn2b, hn3, hf2, e2b, e3⟩
    · exact Or.inr ⟨l1, l2, rest, hn1, hn2, hf, e1, e2⟩
    · obtain ⟨hl, hr⟩ := shape_inj l2 l2b rest rest2 hn2 hn2b (by rw [← e2, e2b])
      refine Or.inr ⟨l1, l3, rest, hn1, hn3, ?_, e1, ?_⟩
      · rw [hf, hl, hf2]
      · rw [e3, ← hr]

theorem drain_bufR (pf : List Char → Option (Option (List Char))) (b1 b2 : List Char)
    (h : BufR b1 b2) :
    (drain pf b1).1 = (drain pf b2).1 ∧ (drain pf b1).2.2 = (drain pf b2).2.2 ∧
    BufR (drain pf b1).2.1 (drain pf b2).2.1 := by
  rcases h with rfl | ⟨l1, l2, rest, hn1, hn2, hf, e1, e2⟩
  · exact ⟨rfl, rfl, bufR_refl _⟩
  · subst e1
    subst e2
    rw [drain_shape pf l1 rest hn1, drain_shape pf l2 rest hn2]
    rcases lineAct_rel pf l1 l2 hf hn1 hn2 with heq | ⟨p1, p2, hp1, hp2, hpf, hpn1, hpn2⟩
    · rw [heq]
      exact ⟨rfl, rfl, bufR_refl _⟩
    · rw [hp1, hp2]
      exact ⟨rfl, rfl, Or.inr ⟨p1, p2, rest, hpn1, hpn2, hpf, rfl, rfl⟩⟩

theorem drain_append (pf : List Char → Option (Option (List Char))) (buf b : List Char) :
    ((drain pf buf).2.2 = DrainStop.noNL →
      drain pf (buf ++ b) =
        ((drain pf buf).1 ++ (drain pf ((drain pf buf).2.1 ++ b)).1,
         (drain pf ((drain pf buf).2.1 ++ b)).2)) ∧
    ((drain pf buf).2.2 = DrainStop.stalled →
      drain pf (buf ++ b) = ((drain pf buf).1, (drain pf buf).2.1 ++ b, DrainStop.stalled)) ∧
    ((drain pf buf).2.2 = DrainStop.finished → drain pf (buf ++ b) = drain pf buf) := by
  have main : ∀ (n : ℕ) (buf b : List Char), buf.length ≤ n →
      ((drain pf buf).2.2 = DrainStop.noNL →
        drain pf (buf ++ b) =
          ((drain pf buf).1 ++ (drain pf ((drain pf buf).2.1 ++ b)).1,
           (drain pf ((drain pf buf).2.1 ++ b)).2)) ∧
      ((drain pf buf).2.2 = DrainStop.stalled →
        drain pf (buf ++ b) = ((drain pf buf).1, (drain pf buf).2.1 ++ b, DrainStop.stalled)) ∧
      ((drain pf buf).2.2 = DrainStop.finished → drain pf (buf ++ b) = drain pf buf) := by
    intro n
    induction n with
    | zero =>
      intro buf b hb
      have h0 : buf = [] := List.length_eq_zero.mp (Nat.le_zero.mp hb)
      subst h0
      rw [drain_of_noNL pf [] (by simp)]
      refine ⟨fun _ => ?_, fun hc => absurd hc (by simp), fun hc => absurd hc (by simp)⟩
      simp
    | succ n ih =>
      intro buf b hb
      cases hs : splitNL buf with
      | none =>
        have hnl := (splitNL_none_iff buf).mp hs
        rw [drain_of_noNL pf buf hnl]
        refine ⟨fun _ => ?_, fun hc => absurd hc (by simp), fun hc => absurd hc (by simp)⟩
        simp
      | some p =>
        obtain ⟨line, rest⟩ := p
        obtain ⟨hsh, hnl⟩ := splitNL_some_shape buf line rest hs
        subst hsh
        have hr : rest.length ≤ n := by
          rw [List.length_append, List.length_cons] at hb
          omega
        have hstep2 : drain pf ((line ++ '\n' :: rest) ++ b) =
            match lineAct pf line with
            | .skip => drain pf (rest ++ b)
            | .emit t => (t :: (drain pf (rest ++ b)).1, (drain pf (rest ++ b)).2)
            | .term => ([], [], DrainStop.finished)
            | .push stored => ([], stored ++ '\n' :: (rest ++ b), DrainStop.stalled) := by
          rw [List.append_assoc]
          exact drain_shape pf line (rest ++ b) hnl
        rw [drain_shape pf line rest hnl, hstep2]
        cases ha : lineAct pf line with
        | skip => exact ih rest b hr
        | emit t =>
          obtain ⟨ih1, ih2, ih3⟩ := ih rest b hr
          refine ⟨fun hstop => ?_, fun hstop => ?_, fun hstop => ?_⟩
          · rw [ih1 hstop]
            simp
          · rw [ih2 hstop]
          · rw [ih3 hstop]
        | term =>
          refine ⟨fun hc => absurd hc (by simp), fun hc => absurd hc (by simp), fun _ => rfl⟩
        | push stored =>
          refine ⟨fun hc => absurd hc (by simp), fun _ => ?_, fun hc => absurd hc (by simp)⟩
          simp
  exact main buf.length buf b le_rfl

-- ------------------------------------------------------------
-- C3 development: feed-level composition
-- ------------------------------------------------------------

theorem stR_refl (s : DecSt) : StR s s := ⟨rfl, bufR_refl _⟩

theorem stR_trans (s1 s2 s3 : DecSt) (h12 : StR s1 s2) (h23 : StR s2 s3) : StR s1 s3 :=
  ⟨h12.1.trans h23.1, bufR_trans _ _ _ h12.2 h23.2⟩

theorem feed_finished (pf : List Char → Option (Option (List Char))) (s : DecSt)
    (c : List Char) (h : s.finished = true) : feed pf s c = (s, []) := by
  simp [feed, h]

theorem feed_not_finished (pf : List Char → Option (Option (List Char))) (s : DecSt)
    (c : List Char) (h : s.finished = false) :
    feed pf s c =
      (⟨(drain pf (s.buf ++ c)).2.1,
        decide ((drain pf (s.buf ++ c)).2.2 = DrainStop.finished)⟩,
       (drain pf (s.buf ++ c)).1) := by
  simp [feed, h]

theorem feed_append (pf : List Char → Option (Option (List Char))) (s : DecSt)
    (a b : List Char) :
    (feed pf s (a ++ b)).2 = (feed pf s a).2 ++ (feed pf (feed pf s a).1 b).2 ∧
    StR (feed pf s (a ++ b)).1 (feed pf (feed pf s a).1 b).1 := by
  by_cases hf : s.finished = true
  · rw [feed_finished pf s (a ++ b) hf, feed_finished pf s a hf, feed_finished pf s b hf]
    exact ⟨rfl, stR_refl s⟩
  · have hf2 : s.finished = false := Bool.not_eq_true _ |>.mp hf
    obtain ⟨d1, d2, d3⟩ := drain_append pf (s.buf ++ a) b
    have hab : s.buf ++ (a ++ b) = (s.buf ++ a) ++ b := (List.append_assoc _ _ _).symm
    cases hstop : (drain pf (s.buf ++ a)).2.2 with
    | noNL =>
      have hD2 := d1 hstop
      rw [← hab] at hD2
      constructor
      · simp [feed_not_finished, hf2, hD2, hstop]
      · have e1 : (feed pf s (a ++ b)).1 =
            ⟨(drain pf ((drain pf (s.buf ++ a)).2.1 ++ b)).2.1,
              decide ((drain pf ((drain pf (s.buf ++ a)).2.1 ++ b)).2.2 =
                DrainStop.finished)⟩ := by
          simp [feed_not_finished, hf2, hD2, hstop]
        have e2 : (feed pf (feed pf s a).1 b).1 =
            ⟨(drain pf ((drain pf (s.buf ++ a)).2.1 ++ b)).2.1,
              decide ((drain pf ((drain pf (s.buf ++ a)).2.1 ++ b)).2.2 =
                DrainStop.finished)⟩ := by
          simp [feed_not_finished, hf2, hstop]
        rw [e1, e2]
        exact stR_refl _
    | stalled =>
      have hD2 := d2 hstop
      rw [← hab] at hD2
      obtain ⟨L, rest2, p, hshape, hLn, hLact⟩ :=
        (drain_residual pf (s.buf ++ a).length (s.buf ++ a) le_rfl).2.1 hstop
      have hdr : drain pf ((drain pf (s.buf ++ a)).2.1 ++ b) =
          ([], p ++ '\n' :: (rest2 ++ b), DrainStop.stalled) := by
        rw [hshape, List.append_assoc]
        exact drain_of_push pf L (rest2 ++ b) p hLn hLact
      have hp : p = stripCR L := lineAct_push_payload pf L p hLact
      constructor
      · simp [feed_not_finished, hf2, hD2, hstop, hdr]
      · have e1 : (feed pf s (a ++ b)).1 =
            ⟨(drain pf (s.buf ++ a)).2.1 ++ b, false⟩ := by
          simp [feed_not_finished, hf2, hD2, hstop]
        have e2 : (feed pf (feed pf s a).1 b).1 =
            ⟨p ++ '\n' :: (rest2 ++ b), false⟩ := by
          simp [feed_not_finished, hf2, hstop, hdr]
        rw [e1, e2]
        refine ⟨rfl, ?_⟩
        show BufR ((drain pf (s.buf ++ a)).2.1 ++ b) (p ++ '\n' :: (rest2 ++ b))
        rw [hshape, List.append_assoc]
        refine Or.inr ⟨L, p, rest2 ++ b, hLn, ?_, ?_, rfl, rfl⟩
        · rw [hp]
          exact noNL_stripCR L hLn
        · rw [hp, fullStrip_stripCR]
    | finished =>
      have hD2 := d3 hstop
      rw [← hab] at hD2
      constructor
      · simp [feed_not_finished, feed_finished, hf2, hD2, hstop]
      · have e1 : (feed pf s (a ++ b)).1 = ⟨(drain pf (s.buf ++ a)).2.1, true⟩ := by
          simp [feed_not_finished, hf2, hD2, hstop]
        have e2 : (feed pf (feed pf s a).1 b).1 =
            ⟨(drain pf (s.buf ++ a)).2.1, true⟩ := by
          simp [feed_not_finished, feed_finished, hf2, hstop]
        rw [e1, e2]
        exact stR_refl _

theorem feed_str (pf : List Char → Option (Option (List Char))) (s1 s2 : DecSt)
    (c : List Char) (h : StR s1 s2) :
    (feed pf s1 c).2 = (feed pf s2 c).2 ∧ StR (feed pf s1 c).1 (feed pf s2 c).1 := by
  obtain ⟨hfl, hbuf⟩ := h
  by_cases hf : s1.finished = true
  · rw [feed_finished pf s1 c hf, feed_finished pf s2 c (hfl ▸ hf)]
    exact ⟨rfl, ⟨hfl, hbuf⟩⟩
  · have hf1 : s1.finished = false := Bool.not_eq_true _ |>.mp hf
    have hf2 : s2.finished = false := hfl ▸ hf1
    rw [feed_not_finished pf s1 c hf1, feed_not_finished pf s2 c hf2]
    obtain ⟨o1, o2, o3⟩ := drain_bufR pf (s1.buf ++ c) (s2.buf ++ c) (bufR_append _ _ c hbuf)
    exact ⟨o1, ⟨by rw [o2], o3⟩⟩

-- ------------------------------------------------------------
-- C3 development: state invariant and whole-run equivalence
-- ------------------------------------------------------------

theorem feed_good (pf : List Char → Option (Option (List Char))) (s : DecSt)
    (c : List Char) (h : GoodSt pf s) : GoodSt pf (feed pf s c).1 := by
  by_cases hf : s.finished = true
  · rw [feed_finished pf s c hf]
    exact h
  · have hf2 : s.finished = false := Bool.not_eq_true _ |>.mp hf
    rw [feed_not_finished pf s c hf2]
    obtain ⟨r1, r2, r3⟩ := drain_residual pf (s.buf ++ c).length (s.buf ++ c) le_rfl
    cases hstop : (drain pf (s.buf ++ c)).2.2 with
    | noNL => exact Or.inr (Or.inl (r1 hstop))
    | stalled => exact Or.inr (Or.inr (r2 hstop))
    | finished =>
      left
      simp

theorem good_init (pf : List Char → Option (Option (List Char))) :
    GoodSt pf ⟨[], false⟩ := Or.inr (Or.inl (by simp))

theorem feed_join (pf : List Char → Option (Option (List Char))) :
    ∀ (cs : List (List Char)) (s : DecSt), GoodSt pf s →
      (feed pf s cs.flatten).2 = (feedList pf s cs).2 ∧
      StR (feed pf s cs.flatten).1 (feedList pf s cs).1 := by
  intro cs
  induction cs with
  | nil =>
    intro s hg
    simp only [List.flatten_nil, feedList]
    by_cases hf : s.finished = true
    · rw [feed_finished pf s [] hf]
      exact ⟨rfl, stR_refl s⟩
    · have hf2 : s.finished = false := Bool.not_eq_true _ |>.mp hf
      rw [feed_not_finished pf s [] hf2]
      rcases hg with hfin | hnl | ⟨L, rest, p, hsh, hLn, hLact⟩
      · exact absurd hfin hf
      · rw [List.append_nil]
        have hd : drain pf s.buf = ([], s.buf, DrainStop.noNL) :=
          drain_of_noNL pf s.buf hnl
        refine ⟨by simp [hd], ?_⟩
        have e1 : (⟨(drain pf s.buf).2.1,
            decide ((drain pf s.buf).2.2 = DrainStop.finished)⟩ : DecSt) =
            ⟨s.buf, false⟩ := by
          simp [hd]
        rw [e1]
        exact ⟨hf2.symm, bufR_refl _⟩
      · rw [List.append_nil]
        have hd : drain pf s.buf = ([], p ++ '\n' :: rest, DrainStop.stalled) := by
          rw [hsh]
          exact drain_of_push pf L rest p hLn hLact
        refine ⟨by simp [hd], ?_⟩
        have e1 : (⟨(drain pf s.buf).2.1,
            decide ((drain pf s.buf).2.2 = DrainStop.finished)⟩ : DecSt) =
            ⟨p ++ '\n' :: rest, false⟩ := by
          simp [hd]
        rw [e1]
        refine ⟨hf2.symm, ?_⟩
        have hp : p = stripCR L := lineAct_push_payload pf L p hLact
        rw [hsh]
        refine Or.inr ⟨p, L, rest, ?_, hLn, ?_, rfl, rfl⟩
        · rw [hp]
          exact noNL_stripCR L hLn
        · rw [hp, fullStrip_stripCR]
  | cons c cs ih =>
    intro s hg
    have h1 := feed_append pf s c cs.flatten
    have h2 := ih (feed pf s c).1 (feed_good pf s c hg)
    constructor
    · show (feed pf s ((c :: cs).flatten)).2 = _
      rw [List.flatten_cons, h1.1, h2.1]
      rfl
    · show StR (feed pf s ((c :: cs).flatten)).1 (feedList pf s (c :: cs)).1
      rw [List.flatten_cons]
      exact stR_trans _ _ _ h1.2 h2.2

theorem splitAllNL_shape (L rest : List Char) (hnl : '\n' ∉ L) :
    splitAllNL (L ++ '\n' :: rest) = L :: splitAllNL rest := by
  induction L with
  | nil => simp [splitAllNL]
  | cons c cs ih =>
    have hc : c ≠ '\n' := fun h => hnl (by rw [← h]; exact List.mem_cons_self _ _)
    have hcs : '\n' ∉ cs := fun h => hnl (List.mem_cons_of_mem c h)
    simp [splitAllNL, hc, ih hcs]

theorem flushLine_cr (pf : List Char → Option (Option (List Char))) (F : List Char) (k : ℕ)
    (hF : F.getLast? ≠ some '\r') :
    flushLine pf (F ++ List.replicate k '\r') = flushLine pf F := by
  cases F with
  | nil =>
    cases k with
    | zero => rfl
    | succ k2 =>
      show flushLine pf ([] ++ List.replicate (k2 + 1) '\r') = flushLine pf []
      rw [List.nil_append, List.replicate_succ]
      simp [flushLine, leadsWith, dataMarker]
  | cons c cs =>
    unfold flushLine
    rw [leadsWith_append_replicate [':'] (c :: cs) k (by decide),
      leadsWith_append_replicate dataMarker (c :: cs) k (by decide),
      show (((c :: cs) ++ List.replicate k '\r')).isEmpty = ((c :: cs) : List Char).isEmpty
        from by simp]
    by_cases h2 : leadsWith dataMarker (c :: cs) = true
    · have hlen : 6 ≤ (c :: cs).length := by
        simpa [dataMarker] using leadsWith_length dataMarker (c :: cs) h2
      rw [List.drop_append_of_le_length hlen, trimChars_append_replicate]
    · have h2f : leadsWith dataMarker (c :: cs) = false := Bool.not_eq_true _ |>.mp h2
      simp [h2f]

theorem trimChars_nil_iff (l : List Char) : trimChars l = [] ↔ ∀ c ∈ l, isWS c = true := by
  unfold trimChars
  constructor
  · intro h c hc
    rw [List.reverse_eq_nil_iff, List.dropWhile_eq_nil_iff] at h
    by_contra hcw
    have hsplit := List.takeWhile_append_dropWhile isWS l
    have hc2 : c ∈ l.takeWhile isWS ∨ c ∈ l.dropWhile isWS := by
      rw [← List.mem_append, hsplit]
      exact hc
    rcases hc2 with h1 | h1
    · exact hcw (List.mem_takeWhile_imp h1)
    · exact hcw (h c (List.mem_reverse.mpr h1))
  · intro h
    have h1 : l.dropWhile isWS = [] := List.dropWhile_eq_nil_iff.mpr (fun x hx => h x hx)
    rw [h1]
    rfl

theorem allWS_cr_line (F rest : List Char) (k : ℕ) :
    (∀ c ∈ (F ++ List.replicate k '\r') ++ '\n' :: rest, isWS c = true) ↔
    (∀ c ∈ F ++ '\n' :: rest, isWS c = true) := by
  constructor
  · intro h c hc
    rcases List.mem_append.mp hc with h1 | h1
    · exact h c (List.mem_append_left _ (List.mem_append_left _ h1))
    · exact h c (List.mem_append_right _ h1)
  · intro h c hc
    rcases List.mem_append.mp hc with h1 | h1
    · rcases List.mem_append.mp h1 with h2 | h2
      · exact h c (List.mem_append_left _ h2)
      · rw [List.eq_of_mem_replicate h2]
        rfl
    · exact h c (List.mem_append_right _ h1)

theorem flushOut_bufR (pf : List Char → Option (Option (List Char))) (b1 b2 : List Char)
    (h : BufR b1 b2) : flushOut pf b1 = flushOut pf b2 := by
  rcases h with rfl | ⟨l1, l2, rest, hn1, hn2, hf, e1, e2⟩
  · rfl
  · subst e1
    subst e2
    have hiff : (trimChars (l1 ++ '\n' :: rest) = []) ↔
        (trimChars (l2 ++ '\n' :: rest) = []) := by
      rw [trimChars_nil_iff, trimChars_nil_iff]
      obtain ⟨k1, hd1, _⟩ := exists_replicate_decomp l1
      obtain ⟨k2, hd2, _⟩ := exists_replicate_decomp l2
      rw [hf] at hd1
      obtain ⟨F, hF⟩ : ∃ F, fullStrip l2 = F := ⟨_, rfl⟩
      rw [hF] at hd1 hd2
      rw [hd1, hd2, allWS_cr_line, allWS_cr_line]
    have hgate : (trimChars (l1 ++ '\n' :: rest)).isEmpty =
        (trimChars (l2 ++ '\n' :: rest)).isEmpty := by
      rcases ht : trimChars (l2 ++ '\n' :: rest) with _ | ⟨x, xs⟩
      · rw [hiff.mpr ht]
      · have hne2 : trimChars (l2 ++ '\n' :: rest) ≠ [] := by
          rw [ht]
          simp
        have hne1 : trimChars (l1 ++ '\n' :: rest) ≠ [] := fun hh => hne2 (hiff.mp hh)
        rcases hq : trimChars (l1 ++ '\n' :: rest) with _ | ⟨y, ys⟩
        · exact absurd hq hne1
        · rfl
    have hfl : flushLine pf l1 = flushLine pf l2 := by
      obtain ⟨k1, hd1, hl1⟩ := exists_replicate_decomp l1
      obtain ⟨k2, hd2, hl2⟩ := exists_replicate_decomp l2
      rw [hf] at hd1 hl1
      obtain ⟨F, hF⟩ : ∃ F, fullStrip l2 = F := ⟨_, rfl⟩
      rw [hF] at hd1 hd2 hl1 hl2
      rw [hd1, hd2, flushLine_cr pf F k1 hl1, flushLine_cr pf F k2 hl2]
    unfold flushOut
    rw [splitAllNL_shape l1 rest hn1, splitAllNL_shape l2 rest hn2, hgate,
      List.map_cons, List.map_cons, hfl]

theorem flatten_map_singleton (l : List Char) :
    (l.map (fun c => [c])).flatten = l := by
  induction l with
  | nil => rfl
  | cons c cs ih => simp [ih]

theorem runDecoder_join (pf : List Char → Option (Option (List Char)))
    (cs : List (List Char)) : runDecoder pf cs = runDecoder pf [cs.flatten] := by
  obtain ⟨ho, hfl, hbuf⟩ := feed_join pf cs ⟨[], false⟩ (good_init pf)
  unfold runDecoder
  have hlist : feedList pf ⟨[], false⟩ [cs.flatten] =
      ((feed pf ⟨[], false⟩ cs.flatten).1, (feed pf ⟨[], false⟩ cs.flatten).2) := by
    simp [feedList]
  rw [hlist]
  by_cases hfin : (feedList pf ⟨[], false⟩ cs).1.finished = true
  · have hfin2 : (feed pf ⟨[], false⟩ cs.flatten).1.finished = true := by
      rw [hfl]
      exact hfin
    rw [if_pos hfin, if_pos hfin2, ho]
  · have hfin1 : ¬ (feed pf ⟨[], false⟩ cs.flatten).1.finished = true := by
      rw [hfl]
      exact hfin
    rw [if_neg hfin, if_neg hfin1, ho, flushOut_bufR pf _ _ hbuf]

/-- C3: chunk-boundary invariance of the stream decoder of
    streamHealthcareChat.  For every model of the frame parser and every
    character stream, feeding the decoder one character at a time
    produces exactly the same concatenated onDelta output and the same
    terminal outcome (early termination by the DONE sentinel versus end
    of stream plus final flush) as feeding the whole stream as a single
    block; more generally every chunking of the stream is equivalent to
    the single block. -/
theorem streamDecoder_chunk_invariance :
    ∀ (parseFrame : List Char → Option (Option (List Char))) (text : List Char),
      runDecoder parseFrame (text.map (fun c => [c])) = runDecoder parseFrame [text] ∧
      ∀ (chunks : List (List Char)),
        runDecoder parseFrame chunks = runDecoder parseFrame [chunks.flatten] := by
  intro pf text
  constructor
  · rw [runDecoder_join pf (text.map (fun c => [c])), flatten_map_singleton]
  · intro chunks
    exact runDecoder_join pf chunks
